import Mathlib

/-!
# Verification of the Kruskal MST core of `script.js`

This file shallowly embeds the two algorithmic components of the repository:

* the `DisjointSet` class (union-find with path compression and union by
  rank), lines 4-36 of `script.js`;
* the `kruskalMST` function, lines 40-59 of `script.js`.

JavaScript arrays are modelled as `List`; in-range element reads
`this.parent[i]` become `List.getD`, writes become `List.set`.  The
recursive `find` is embedded with explicit fuel, returning `none` when the
fuel runs out; on every state considered by the theorems below the fuel
supplied by the embeddings is proved sufficient.  Machine numbers are
modelled as `Int` (weights, costs) and `Nat` (vertex indices, ranks).

A second, JavaScript-precise model (`JVal`, `JArr`, `jfind`, …) captures
the semantics of out-of-range array access (reads yield `undefined`,
writes extend the array), which the idealised model above does not need
for in-range inputs; it is used for the claims whose content is exactly
the out-of-range behaviour.
-/

/-- An edge record `{source, destination, weight}` as built by the caller of
`kruskalMST` (script.js line 203). -/
structure Edge where
  source : Nat
  destination : Nat
  weight : Int
deriving DecidableEq, Repr

/-- Insert an edge into a weight-sorted list, keeping it sorted
(stable: an inserted edge goes after earlier edges of equal weight). -/
def insertByWeight (e : Edge) : List Edge → List Edge
  | [] => [e]
  | f :: fs => if f.weight ≤ e.weight then f :: insertByWeight e fs else e :: f :: fs

/-- The in-place `allEdges.sort((a, b) => a.weight - b.weight)` of
script.js line 43: a stable comparison sort by ascending weight, modelled
as insertion sort.  The embedding of `kruskalMST` returns the sorted list
as the post-call content of the caller's array. -/
def sortByWeight : List Edge → List Edge
  | [] => []
  | e :: es => insertByWeight e (sortByWeight es)

/-- The state of the `DisjointSet` class: the `parent` and `rank` arrays
(script.js lines 6-7). -/
structure DisjointSet where
  parent : List Nat
  rank : List Nat
deriving DecidableEq, Repr

/-- `new DisjointSet(n)` (script.js lines 5-8): `parent = [0, …, n-1]`,
`rank = [0, …, 0]`. -/
def DisjointSet.make (n : Nat) : DisjointSet :=
  ⟨List.range n, List.replicate n 0⟩

/-- `find(i)` of script.js lines 10-17, with explicit fuel.  Returns the
updated `parent` array (path compression mutates it) together with the
returned root; `none` means the fuel was exhausted.  In-range reads
`parent[i]` are `p.getD i i` (the default is never exercised on the
states the theorems quantify over). -/
def findAux : Nat → List Nat → Nat → Option (List Nat × Nat)
  | 0, _, _ => none
  | fuel + 1, p, i =>
    if p.getD i i = i then
      some (p, i)
    else
      match findAux fuel p (p.getD i i) with
      | none => none
      | some (p1, r) =>
        let p2 := p1.set i r
        some (p2, p2.getD i i)

/-- `union(x, y)` of script.js lines 19-35, threading the mutated state.
Returns the new state and the boolean result. -/
def unionAux (fuel : Nat) (d : DisjointSet) (x y : Nat) :
    Option (DisjointSet × Bool) :=
  match findAux fuel d.parent x with
  | none => none
  | some (p1, rootX) =>
    match findAux fuel p1 y with
    | none => none
    | some (p2, rootY) =>
      if rootX ≠ rootY then
        if d.rank.getD rootX 0 > d.rank.getD rootY 0 then
          some (⟨p2.set rootY rootX, d.rank⟩, true)
        else if d.rank.getD rootX 0 < d.rank.getD rootY 0 then
          some (⟨p2.set rootX rootY, d.rank⟩, true)
        else
          some (⟨p2.set rootY rootX, d.rank.set rootX (d.rank.getD rootX 0 + 1)⟩, true)
      else
        some (⟨p2, d.rank⟩, false)

/-- The loop of script.js lines 48-56: iterate the sorted edges; before
each edge, stop if `resultMST.length === V - 1` (the comparison is over
JavaScript numbers, hence `Int`, so that `V = 0` compares `0` with `-1`);
otherwise `union` the endpoints and on success push the edge and add its
weight. -/
def kruskalLoop (fuel V : Nat) :
    List Edge → List Edge → Int → DisjointSet → Option (List Edge × Int × DisjointSet)
  | [], resultMST, totalCost, dsu => some (resultMST, totalCost, dsu)
  | e :: rest, resultMST, totalCost, dsu =>
    if (resultMST.length : Int) = (V : Int) - 1 then
      some (resultMST, totalCost, dsu)
    else
      match unionAux fuel dsu e.source e.destination with
      | none => none
      | some (dsu', ok) =>
        if ok then
          kruskalLoop fuel V rest (resultMST ++ [e]) (totalCost + e.weight) dsu'
        else
          kruskalLoop fuel V rest resultMST totalCost dsu'

/-- The observable outcome of a `kruskalMST` call: the returned `mst` and
`cost`, plus the post-call content of the caller's `allEdges` array
(which line 43 sorts in place). -/
structure KResult where
  mst : List Edge
  cost : Int
  finalEdges : List Edge
deriving DecidableEq, Repr

/-- `kruskalMST(V, allEdges)` of script.js lines 40-59.  The per-call fuel
`V + 2` is proved sufficient on every state reached from `new
DisjointSet(V)`. -/
def kruskalMST (V : Nat) (allEdges : List Edge) : Option KResult :=
  let sorted := sortByWeight allEdges
  match kruskalLoop (V + 2) V sorted [] 0 (DisjointSet.make V) with
  | none => none
  | some (mst, cost, _) => some ⟨mst, cost, sorted⟩

/-! ## JavaScript-precise model of the `DisjointSet` class

The model above idealises out-of-range array reads.  The claims about
`V = 0` inputs and about out-of-range indices are exactly about what the
JavaScript engine does there, so the following model tracks it precisely:
reading `a[i]` past the end of an array (or a hole) yields `undefined`;
writing past the end extends the array with holes; `a[undefined]` and
`a[NaN]` are ordinary property accesses keyed by the strings
`"undefined"`/`"NaN"`; `undefined === undefined` is true, `NaN === NaN`
is false; `<` and `>` involving `undefined` or `NaN` are false; and
`undefined + 1` is `NaN`. -/

/-- A JavaScript value that can flow through the `DisjointSet` code when
indices may be out of range: a (natural) number, `undefined`, or `NaN`. -/
inductive JVal where
  | num : Nat → JVal
  | undefV : JVal
  | nan : JVal
deriving DecidableEq, Repr

/-- A JavaScript array as the `DisjointSet` code uses it: the indexed
elements (holes stored as `.undefV`), plus the `"undefined"` and `"NaN"`
properties that index expressions `a[undefined]` / `a[NaN]` touch. -/
structure JArr where
  elems : List JVal
  uprop : Option JVal
  nprop : Option JVal
deriving DecidableEq, Repr

/-- Property read `a[i]`. -/
def jget (a : JArr) : JVal → JVal
  | .num k => a.elems.getD k .undefV
  | .undefV => a.uprop.getD .undefV
  | .nan => a.nprop.getD .undefV

/-- Property write `a[i] = v`; writing at a numeric index past the end
extends the array with holes. -/
def jset (a : JArr) : JVal → JVal → JArr
  | .num k, v =>
    if k < a.elems.length then ⟨a.elems.set k v, a.uprop, a.nprop⟩
    else ⟨a.elems ++ List.replicate (k - a.elems.length) .undefV ++ [v], a.uprop, a.nprop⟩
  | .undefV, v => ⟨a.elems, some v, a.nprop⟩
  | .nan, v => ⟨a.elems, a.uprop, some v⟩

/-- JavaScript strict equality `===` on these values. -/
def jeq : JVal → JVal → Bool
  | .num a, .num b => a == b
  | .undefV, .undefV => true
  | _, _ => false

/-- JavaScript `>` (false whenever `undefined` or `NaN` is involved). -/
def jgt : JVal → JVal → Bool
  | .num a, .num b => b < a
  | _, _ => false

/-- JavaScript `<` (false whenever `undefined` or `NaN` is involved). -/
def jlt : JVal → JVal → Bool
  | .num a, .num b => a < b
  | _, _ => false

/-- JavaScript `x + 1` as performed by `this.rank[rootX]++`. -/
def jinc : JVal → JVal
  | .num n => .num (n + 1)
  | _ => .nan

/-- The `DisjointSet` state in the JavaScript-precise model. -/
structure JDisjointSet where
  parent : JArr
  rank : JArr
deriving DecidableEq, Repr

/-- `new DisjointSet(n)` in the JavaScript-precise model. -/
def JDisjointSet.make (n : Nat) : JDisjointSet :=
  ⟨⟨(List.range n).map JVal.num, none, none⟩,
   ⟨List.replicate n (JVal.num 0), none, none⟩⟩

/-- `find(i)` of script.js lines 10-17 under precise JavaScript array
semantics, with fuel. -/
def jfind : Nat → JArr → JVal → Option (JArr × JVal)
  | 0, _, _ => none
  | fuel + 1, p, i =>
    if jeq (jget p i) i then
      some (p, i)
    else
      match jfind fuel p (jget p i) with
      | none => none
      | some (p1, r) =>
        let p2 := jset p1 i r
        some (p2, jget p2 i)

/-- `union(x, y)` of script.js lines 19-35 under precise JavaScript
semantics. -/
def junion (fuel : Nat) (d : JDisjointSet) (x y : JVal) :
    Option (JDisjointSet × Bool) :=
  match jfind fuel d.parent x with
  | none => none
  | some (p1, rootX) =>
    match jfind fuel p1 y with
    | none => none
    | some (p2, rootY) =>
      if !jeq rootX rootY then
        if jgt (jget d.rank rootX) (jget d.rank rootY) then
          some (⟨jset p2 rootY rootX, d.rank⟩, true)
        else if jlt (jget d.rank rootX) (jget d.rank rootY) then
          some (⟨jset p2 rootX rootY, d.rank⟩, true)
        else
          some (⟨jset p2 rootY rootX, jset d.rank rootX (jinc (jget d.rank rootX))⟩, true)
      else
        some (⟨p2, d.rank⟩, false)

/-- The loop of script.js lines 48-56 over the JavaScript-precise state. -/
def jkruskalLoop (fuel V : Nat) :
    List Edge → List Edge → Int → JDisjointSet → Option (List Edge × Int × JDisjointSet)
  | [], resultMST, totalCost, dsu => some (resultMST, totalCost, dsu)
  | e :: rest, resultMST, totalCost, dsu =>
    if (resultMST.length : Int) = (V : Int) - 1 then
      some (resultMST, totalCost, dsu)
    else
      match junion fuel dsu (.num e.source) (.num e.destination) with
      | none => none
      | some (dsu', ok) =>
        if ok then
          jkruskalLoop fuel V rest (resultMST ++ [e]) (totalCost + e.weight) dsu'
        else
          jkruskalLoop fuel V rest resultMST totalCost dsu'

/-- `kruskalMST(V, allEdges)` over the JavaScript-precise state. -/
def jkruskalMST (V : Nat) (allEdges : List Edge) : Option KResult :=
  let sorted := sortByWeight allEdges
  match jkruskalLoop (V + 2) V sorted [] 0 (JDisjointSet.make V) with
  | none => none
  | some (mst, cost, _) => some ⟨mst, cost, sorted⟩

/-- Non-decreasing weight order between two edges. -/
def weightLE (a b : Edge) : Prop := a.weight ≤ b.weight

/-! ### Derived notions about the `DisjointSet` parent array

These describe the parent graph of a `DisjointSet` state; the theorems
below relate `findAux`/`unionAux` to them. -/

/-- One step of the parent walk: the value `parent[i]` as `find` reads it
(an out-of-range index reads as itself and so counts as an instant root;
all proved uses are in range). -/
def pstep (p : List Nat) (i : Nat) : Nat := p.getD i i

/-- `parent[i] === i`: `i` is a representative. -/
def isRoot (p : List Nat) (i : Nat) : Prop := pstep p i = i

instance isRootDecidable (p : List Nat) (i : Nat) : Decidable (isRoot p i) :=
  inferInstanceAs (Decidable (pstep p i = i))

/-- The parent walk from `i` terminates at the representative `r`. -/
def RootedAt (p : List Nat) (i r : Nat) : Prop :=
  ∃ k, (pstep p)^[k] i = r ∧ isRoot p r

/-- Every stored parent is a valid index. -/
def RangeOK (p : List Nat) : Prop := ∀ j ∈ p, j < p.length

/-- The union-find invariant: stored parents are in range and every walk
terminates at a representative (the parent relation is acyclic). -/
def DSUInv (p : List Nat) : Prop := RangeOK p ∧ ∀ i : Nat, ∃ r, RootedAt p i r

/-- The in-range representatives of a parent array. -/
def rootSet (p : List Nat) : Finset Nat :=
  (Finset.range p.length).filter (fun j => isRoot p j)

/-- `u` and `v` have the same representative. -/
def rootEq (p : List Nat) (u v : Nat) : Prop :=
  ∃ r, RootedAt p u r ∧ RootedAt p v r

/-- The equivalence obtained from `R` by merging the classes of `x` and
`y` (the abstract effect of a `union(x, y)` call). -/
def joinRel (R : Nat → Nat → Prop) (x y : Nat) (a c : Nat) : Prop :=
  R a c ∨ (R a x ∧ R y c) ∨ (R a y ∧ R x c)

/-- The `DisjointSet` states reachable from `new DisjointSet(n)` by
`find`/`union` calls with in-range arguments, paired with the abstract
equivalence generated by the merge history (`find` merges nothing;
`union(x, y)` joins the classes of `x` and `y`).  Each call is run with
fuel `n + 1`, which the invariant theorem shows is always sufficient. -/
inductive ReachableWith (n : Nat) : DisjointSet → (Nat → Nat → Prop) → Prop where
  | init : ReachableWith n (DisjointSet.make n) (fun a b => a = b)
  | find {d : DisjointSet} {R : Nat → Nat → Prop} {p' : List Nat} {r : Nat} (i : Nat) :
      i < n → ReachableWith n d R → findAux (n + 1) d.parent i = some (p', r) →
      ReachableWith n ⟨p', d.rank⟩ R
  | union {d : DisjointSet} {R : Nat → Nat → Prop} {d' : DisjointSet} {b : Bool}
      (x y : Nat) : x < n → y < n → ReachableWith n d R →
      unionAux (n + 1) d x y = some (d', b) →
      ReachableWith n d' (joinRel R x y)

/-! ### Graph notions for minimality

Edge multisets are used so that the in-place sort (a permutation of the
caller's list) leaves the graph, its spanning forests and their weights
literally unchanged. -/

/-- Edge `e` joins vertices `a` and `b` (in either orientation). -/
def joins (e : Edge) (a b : Nat) : Prop :=
  (e.source = a ∧ e.destination = b) ∨ (e.source = b ∧ e.destination = a)

/-- `a` and `b` are adjacent via some edge of `E`. -/
def adjE (E : Multiset Edge) (a b : Nat) : Prop := ∃ e ∈ E, joins e a b

/-- Connectivity by the edges of `E` (reflexive-transitive closure of
adjacency; `adjE` is symmetric, so this is an equivalence). -/
def connects (E : Multiset Edge) (a b : Nat) : Prop :=
  Relation.ReflTransGen (adjE E) a b

/-- `E` is a forest: no edge occurrence is redundant (its endpoints are
not connected by the remaining edges).  This rules out self-loops and
duplicated parallel edges. -/
def IsForest (E : Multiset Edge) : Prop :=
  ∀ e ∈ E, ¬ connects (E.erase e) e.source e.destination

/-- `F` is a spanning forest of the multigraph with edge multiset `G`:
a sub-multiset that is a forest and is maximal in `G` (every edge of `G`
has its endpoints already `F`-connected). -/
def SpanningForest (G F : Multiset Edge) : Prop :=
  F ≤ G ∧ IsForest F ∧ ∀ e ∈ G, connects F e.source e.destination

/-- Total weight of an edge multiset. -/
def weightSum (F : Multiset Edge) : Int := (F.map Edge.weight).sum

/-- An explicit walk through edges of `E` from `x` to `y`; the list is
the sequence of visited vertices (starting with `x`). -/
inductive WalkIn (E : Multiset Edge) : Nat → Nat → List Nat → Prop where
  | nil (x : Nat) : WalkIn E x x [x]
  | cons {y z : Nat} {l : List Nat} (x : Nat) (e : Edge) (he : e ∈ E)
      (hj : joins e x y) (hw : WalkIn E y z l) : WalkIn E x z (x :: l)

/-- Unfolding equation for `jkruskalMST` with the local `let` removed. -/
theorem jkruskalMST_eq (V : Nat) (allEdges : List Edge) :
    jkruskalMST V allEdges =
      match jkruskalLoop (V + 2) V (sortByWeight allEdges) [] 0 (JDisjointSet.make V) with
      | none => none
      | some (mst, cost, _) => some ⟨mst, cost, sortByWeight allEdges⟩ := rfl

theorem insertByWeight_perm (e : Edge) (l : List Edge) :
    (insertByWeight e l).Perm (e :: l) := by
  induction l with
  | nil => simp [insertByWeight]
  | cons f fs ih =>
    by_cases h : f.weight ≤ e.weight
    · simp only [insertByWeight, if_pos h]
      exact ((ih.cons f).trans (List.Perm.swap e f fs)).symm.symm
    · simp [insertByWeight, if_neg h]

theorem sortByWeight_perm (l : List Edge) : (sortByWeight l).Perm l := by
  induction l with
  | nil => simp [sortByWeight]
  | cons e es ih =>
    exact (insertByWeight_perm e (sortByWeight es)).trans (ih.cons e)

theorem insertByWeight_pairwise {e : Edge} {l : List Edge}
    (h : l.Pairwise weightLE) : (insertByWeight e l).Pairwise weightLE := by
  induction l with
  | nil => simp [insertByWeight, List.pairwise_singleton]
  | cons f fs ih =>
    rcases List.pairwise_cons.mp h with ⟨hf, hfs⟩
    by_cases hle : f.weight ≤ e.weight
    · simp only [insertByWeight, if_pos hle]
      refine List.pairwise_cons.mpr ⟨?_, ih hfs⟩
      intro g hg
      rcases List.mem_cons.mp ((insertByWeight_perm e fs).mem_iff.mp hg) with hge | hgm
      · subst hge; exact hle
      · exact hf g hgm
    · simp only [insertByWeight, if_neg hle]
      refine List.pairwise_cons.mpr ⟨?_, h⟩
      intro g hg
      have hew : e.weight ≤ f.weight := le_of_not_le hle
      rcases List.mem_cons.mp hg with hgf | hgm
      · subst hgf; exact hew
      · exact le_trans hew (hf g hgm)

theorem sortByWeight_pairwise (l : List Edge) :
    (sortByWeight l).Pairwise weightLE := by
  induction l with
  | nil => simp [sortByWeight]
  | cons e es ih => exact insertByWeight_pairwise ih

/-- Cost accounting of the loop: the final cost is the accumulator plus
the weights of the edges appended after the initial `resultMST`. -/
theorem kruskalLoop_cost (fuel V : Nat) :
    ∀ (rest T : List Edge) (c : Int) (d : DisjointSet) (mst : List Edge)
      (cost : Int) (d' : DisjointSet),
      kruskalLoop fuel V rest T c d = some (mst, cost, d') →
      c = (T.map Edge.weight).sum → cost = (mst.map Edge.weight).sum := by
  intro rest
  induction rest with
  | nil =>
    intro T c d mst cost d' hrun hc
    simp only [kruskalLoop] at hrun
    rcases hrun with ⟨rfl, rfl, rfl⟩
    exact hc
  | cons e rest ih =>
    intro T c d mst cost d' hrun hc
    simp only [kruskalLoop] at hrun
    by_cases hbrk : (T.length : Int) = (V : Int) - 1
    · rw [if_pos hbrk] at hrun
      rcases hrun with ⟨rfl, rfl, rfl⟩
      exact hc
    · rw [if_neg hbrk] at hrun
      cases hu : unionAux fuel d e.source e.destination with
      | none => rw [hu] at hrun; cases hrun
      | some p =>
        rw [hu] at hrun
        rcases p with ⟨d1, ok⟩
        cases ok with
        | true =>
          simp only [if_pos] at hrun
          refine ih (T ++ [e]) (c + e.weight) d1 mst cost d' hrun ?_
          simp [hc]
        | false =>
          simp only [if_neg] at hrun
          exact ih T c d1 mst cost d' hrun hc

/-- Shape of the loop result: the final list is the initial `resultMST`
followed by a sublist of the remaining edges, in order. -/
theorem kruskalLoop_shape (fuel V : Nat) :
    ∀ (rest T : List Edge) (c : Int) (d : DisjointSet) (mst : List Edge)
      (cost : Int) (d' : DisjointSet),
      kruskalLoop fuel V rest T c d = some (mst, cost, d') →
      ∃ sel : List Edge, mst = T ++ sel ∧ sel.Sublist rest := by
  intro rest
  induction rest with
  | nil =>
    intro T c d mst cost d' hrun
    simp only [kruskalLoop] at hrun
    rcases hrun with ⟨rfl, rfl, rfl⟩
    exact ⟨[], by simp⟩
  | cons e rest ih =>
    intro T c d mst cost d' hrun
    simp only [kruskalLoop] at hrun
    by_cases hbrk : (T.length : Int) = (V : Int) - 1
    · rw [if_pos hbrk] at hrun
      rcases hrun with ⟨rfl, rfl, rfl⟩
      exact ⟨[], by simp⟩
    · rw [if_neg hbrk] at hrun
      cases hu : unionAux fuel d e.source e.destination with
      | none => rw [hu] at hrun; cases hrun
      | some p =>
        rw [hu] at hrun
        rcases p with ⟨d1, ok⟩
        cases ok with
        | true =>
          simp only [if_pos] at hrun
          rcases ih (T ++ [e]) (c + e.weight) d1 mst cost d' hrun with ⟨sel, hsel, hsub⟩
          exact ⟨e :: sel, by simpa using hsel, List.Sublist.cons₂ e hsub⟩
        | false =>
          simp only [if_neg] at hrun
          rcases ih T c d1 mst cost d' hrun with ⟨sel, hsel, hsub⟩
          exact ⟨sel, hsel, hsub.cons e⟩

/-- Unfolding equation for `kruskalMST` with the local `let` removed. -/
theorem kruskalMST_eq (V : Nat) (allEdges : List Edge) :
    kruskalMST V allEdges =
      match kruskalLoop (V + 2) V (sortByWeight allEdges) [] 0 (DisjointSet.make V) with
      | none => none
      | some (mst, cost, _) => some ⟨mst, cost, sortByWeight allEdges⟩ := rfl

/-- C7: on Scenario 1 (`V = 4`, the five listed edges) the call returns
cost 19 and exactly the edges `(2,3,4), (0,3,5), (0,1,10)` in ascending
weight order (and the caller's array is left sorted by weight). -/
theorem kruskalMST_scenario1 :
    kruskalMST 4 [⟨0, 1, 10⟩, ⟨0, 2, 6⟩, ⟨0, 3, 5⟩, ⟨1, 3, 15⟩, ⟨2, 3, 4⟩] =
      some ⟨[⟨2, 3, 4⟩, ⟨0, 3, 5⟩, ⟨0, 1, 10⟩], 19,
        [⟨2, 3, 4⟩, ⟨0, 3, 5⟩, ⟨0, 2, 6⟩, ⟨0, 1, 10⟩, ⟨1, 3, 15⟩]⟩ := by
  decide

/-- C8: whenever `kruskalMST` returns, the returned cost is exactly the
sum of the weights of the returned edges. -/
theorem kruskalMST_cost_eq_sum (V : Nat) (allEdges : List Edge) (r : KResult)
    (h : kruskalMST V allEdges = some r) :
    r.cost = (r.mst.map Edge.weight).sum := by
  rw [kruskalMST_eq] at h
  cases hrun : kruskalLoop (V + 2) V (sortByWeight allEdges) [] 0 (DisjointSet.make V) with
  | none => rw [hrun] at h; cases h
  | some p =>
    rw [hrun] at h
    rcases p with ⟨mst, cost, d'⟩
    cases h
    exact kruskalLoop_cost (V + 2) V (sortByWeight allEdges) [] 0
      (DisjointSet.make V) mst cost d' hrun rfl

/-- Witness for C8 at Scenario 1. -/
theorem kruskalMST_cost_eq_sum_witness :
    (⟨[⟨2, 3, 4⟩, ⟨0, 3, 5⟩, ⟨0, 1, 10⟩], 19,
      [⟨2, 3, 4⟩, ⟨0, 3, 5⟩, ⟨0, 2, 6⟩, ⟨0, 1, 10⟩, ⟨1, 3, 15⟩]⟩ : KResult).cost =
    (([⟨2, 3, 4⟩, ⟨0, 3, 5⟩, ⟨0, 1, 10⟩] : List Edge).map Edge.weight).sum :=
  kruskalMST_cost_eq_sum 4 [⟨0, 1, 10⟩, ⟨0, 2, 6⟩, ⟨0, 3, 5⟩, ⟨1, 3, 15⟩, ⟨2, 3, 4⟩]
    ⟨[⟨2, 3, 4⟩, ⟨0, 3, 5⟩, ⟨0, 1, 10⟩], 19,
      [⟨2, 3, 4⟩, ⟨0, 3, 5⟩, ⟨0, 2, 6⟩, ⟨0, 1, 10⟩, ⟨1, 3, 15⟩]⟩ (by decide)

/-- C10: whatever the input, the returned edge list is ordered by
non-decreasing weight and every returned edge is an element of the input
list. -/
theorem kruskalMST_sorted_subset (V : Nat) (allEdges : List Edge) (r : KResult)
    (h : kruskalMST V allEdges = some r) :
    r.mst.Pairwise weightLE ∧ ∀ e ∈ r.mst, e ∈ allEdges := by
  rw [kruskalMST_eq] at h
  cases hrun : kruskalLoop (V + 2) V (sortByWeight allEdges) [] 0 (DisjointSet.make V) with
  | none => rw [hrun] at h; cases h
  | some p =>
    rw [hrun] at h
    rcases p with ⟨mst, cost, d'⟩
    cases h
    rcases kruskalLoop_shape (V + 2) V (sortByWeight allEdges) [] 0
      (DisjointSet.make V) mst cost d' hrun with ⟨sel, hsel, hsub⟩
    simp only [List.nil_append] at hsel
    subst hsel
    constructor
    · exact (sortByWeight_pairwise allEdges).sublist hsub
    · intro e he
      exact (sortByWeight_perm allEdges).mem_iff.mp (hsub.mem he)

/-- Witness for C10 at Scenario 1. -/
theorem kruskalMST_sorted_subset_witness :
    ([⟨2, 3, 4⟩, ⟨0, 3, 5⟩, ⟨0, 1, 10⟩] : List Edge).Pairwise weightLE ∧
      ∀ e ∈ ([⟨2, 3, 4⟩, ⟨0, 3, 5⟩, ⟨0, 1, 10⟩] : List Edge),
        e ∈ ([⟨0, 1, 10⟩, ⟨0, 2, 6⟩, ⟨0, 3, 5⟩, ⟨1, 3, 15⟩, ⟨2, 3, 4⟩] : List Edge) :=
  kruskalMST_sorted_subset 4 [⟨0, 1, 10⟩, ⟨0, 2, 6⟩, ⟨0, 3, 5⟩, ⟨1, 3, 15⟩, ⟨2, 3, 4⟩]
    ⟨[⟨2, 3, 4⟩, ⟨0, 3, 5⟩, ⟨0, 1, 10⟩], 19,
      [⟨2, 3, 4⟩, ⟨0, 3, 5⟩, ⟨0, 2, 6⟩, ⟨0, 1, 10⟩, ⟨1, 3, 15⟩]⟩ (by decide)

/-- C2 counterexample: the call mutates the caller's `allEdges` — line 43
sorts the array in place, so after the call the caller's list is the
sorted list, which differs from the supplied order. -/
theorem kruskalMST_mutates_counterexample :
    (kruskalMST 2 [⟨0, 1, 7⟩, ⟨0, 1, 3⟩]).map KResult.finalEdges =
        some [⟨0, 1, 3⟩, ⟨0, 1, 7⟩] ∧
      ([⟨0, 1, 3⟩, ⟨0, 1, 7⟩] : List Edge) ≠ [⟨0, 1, 7⟩, ⟨0, 1, 3⟩] := by
  decide

/-- C2 amended: the call is deterministic, but its one side effect is to
reorder the caller's `allEdges` in place: after the call the caller's
list is exactly the input list sorted stably by ascending weight (a
permutation of the input, in non-decreasing weight order). -/
theorem kruskalMST_final_edges (V : Nat) (allEdges : List Edge) (r : KResult)
    (h : kruskalMST V allEdges = some r) :
    r.finalEdges = sortByWeight allEdges ∧ r.finalEdges.Perm allEdges ∧
      r.finalEdges.Pairwise weightLE := by
  rw [kruskalMST_eq] at h
  cases hrun : kruskalLoop (V + 2) V (sortByWeight allEdges) [] 0 (DisjointSet.make V) with
  | none => rw [hrun] at h; cases h
  | some p =>
    rw [hrun] at h
    rcases p with ⟨mst, cost, d'⟩
    cases h
    exact ⟨rfl, sortByWeight_perm allEdges, sortByWeight_pairwise allEdges⟩

/-- Witness for the amended C2 at a concrete unsorted input. -/
theorem kruskalMST_final_edges_witness :
    ([⟨0, 1, 3⟩, ⟨0, 1, 7⟩] : List Edge) = sortByWeight [⟨0, 1, 7⟩, ⟨0, 1, 3⟩] ∧
      ([⟨0, 1, 3⟩, ⟨0, 1, 7⟩] : List Edge).Perm [⟨0, 1, 7⟩, ⟨0, 1, 3⟩] ∧
      ([⟨0, 1, 3⟩, ⟨0, 1, 7⟩] : List Edge).Pairwise weightLE := by
  have h := kruskalMST_final_edges 2 [⟨0, 1, 7⟩, ⟨0, 1, 3⟩]
    ⟨[⟨0, 1, 3⟩], 3, [⟨0, 1, 3⟩, ⟨0, 1, 7⟩]⟩ (by decide)
  exact h

/-! ## C6 and C9: behaviour on out-of-range indices -/

theorem getD_all_undefV (l : List JVal) (h : ∀ v ∈ l, v = .undefV) (k : Nat) :
    l.getD k .undefV = .undefV := by
  induction l generalizing k with
  | nil => simp [List.getD]
  | cons a l ih =>
    cases k with
    | zero => simpa using h a (by simp)
    | succ k =>
      simp only [List.getD_cons_succ]
      exact ih (fun v hv => h v (by simp [hv])) k

theorem jset_elems_all_undefV (p : JArr) (h : ∀ v ∈ p.elems, v = .undefV) (k : Nat) :
    ∀ v ∈ (jset p (.num k) .undefV).elems, v = .undefV := by
  simp only [jset]
  by_cases hk : k < p.elems.length
  · rw [if_pos hk]
    intro v hv
    rcases List.mem_or_eq_of_mem_set hv with hvm | rfl
    · exact h v hvm
    · rfl
  · rw [if_neg hk]
    intro v hv
    simp only [List.mem_append, List.mem_replicate, List.mem_singleton] at hv
    rcases hv with (hvm | ⟨-, rfl⟩) | rfl
    · exact h v hvm
    · rfl
    · rfl

/-- On a state whose parent entries are all holes and whose `"undefined"`
property is unset (the situation for `V = 0`), `find` on any numeric
index returns `undefined` and keeps the state in that shape. -/
theorem jfind_zeroState (p : JArr) (hall : ∀ v ∈ p.elems, v = .undefV)
    (hu : p.uprop = none) (k : Nat) :
    jfind 2 p (.num k) = some (jset p (.num k) .undefV, .undefV) ∧
      (∀ v ∈ (jset p (.num k) .undefV).elems, v = .undefV) ∧
      (jset p (.num k) .undefV).uprop = p.uprop := by
  have hget : jget p (.num k) = .undefV := getD_all_undefV p.elems hall k
  have hgetu : jget p .undefV = .undefV := by simp [jget, hu]
  refine ⟨?_, jset_elems_all_undefV p hall k, ?_⟩
  · show jfind 2 p (.num k) = _
    rw [jfind, hget]
    have h1 : jeq JVal.undefV (.num k) = false := rfl
    rw [h1]
    simp only [Bool.false_eq_true, if_false]
    rw [jfind, hgetu]
    have h2 : jeq JVal.undefV .undefV = true := rfl
    rw [h2]
    simp only [if_true]
    have hres : jget (jset p (.num k) .undefV) (.num k) = .undefV :=
      getD_all_undefV _ (jset_elems_all_undefV p hall k) k
    simp [hres]
  · simp only [jset]
    by_cases hk : k < p.elems.length <;> simp [hk]

/-- For `V = 0`, every `union` call returns `false` and keeps the parent
array in the all-holes shape. -/
theorem junion_zeroState (d : JDisjointSet) (hall : ∀ v ∈ d.parent.elems, v = .undefV)
    (hu : d.parent.uprop = none) (s t : Nat) :
    ∃ d' : JDisjointSet, junion 2 d (.num s) (.num t) = some (d', false) ∧
      (∀ v ∈ d'.parent.elems, v = .undefV) ∧ d'.parent.uprop = none ∧
      d'.rank = d.rank := by
  rcases jfind_zeroState d.parent hall hu s with ⟨hf1, hall1, hu1⟩
  set p1 := jset d.parent (.num s) .undefV with hp1
  rcases jfind_zeroState p1 hall1 (hu1.trans hu) t with ⟨hf2, hall2, hu2⟩
  set p2 := jset p1 (.num t) .undefV with hp2
  refine ⟨⟨p2, d.rank⟩, ?_, hall2, (hu2.trans (hu1.trans hu)), rfl⟩
  show junion 2 d (.num s) (.num t) = _
  simp only [junion, hf1, hf2]
  rfl

theorem jkruskalLoop_zeroV (l : List Edge) :
    ∀ d : JDisjointSet, (∀ v ∈ d.parent.elems, v = .undefV) → d.parent.uprop = none →
    ∃ d2, jkruskalLoop 2 0 l [] 0 d = some ([], 0, d2) := by
  induction l with
  | nil => intro d _ _; exact ⟨d, rfl⟩
  | cons e rest ih =>
    intro d hall hu
    rcases junion_zeroState d hall hu e.source e.destination with ⟨d', hun, hall', hu', -⟩
    rcases ih d' hall' hu' with ⟨d2, hrun⟩
    refine ⟨d2, ?_⟩
    rw [jkruskalLoop]
    rw [if_neg (by norm_num), hun]
    simpa using hrun

/-- C6: for `V = 0` and for `V = 1` the call returns an empty edge list
and cost 0, regardless of the content of `allEdges` (for `V = 0` every
supplied edge is processed but each `union` sees two `undefined` roots
and returns `false`; for `V = 1` the loop stops before examining any
edge). -/
theorem jkruskalMST_V0_V1 (allEdges : List Edge) :
    (jkruskalMST 0 allEdges).map (fun r => (r.mst, r.cost)) = some ([], 0) ∧
      (jkruskalMST 1 allEdges).map (fun r => (r.mst, r.cost)) = some ([], 0) := by
  constructor
  · rw [jkruskalMST_eq]
    have hmk : ∀ v ∈ (JDisjointSet.make 0).parent.elems, v = .undefV := by
      intro v hv; simp [JDisjointSet.make] at hv
    have hu : (JDisjointSet.make 0).parent.uprop = none := rfl
    rcases jkruskalLoop_zeroV (sortByWeight allEdges) (JDisjointSet.make 0) hmk hu with
      ⟨d2, hrun⟩
    rw [hrun]
    rfl
  · rw [jkruskalMST_eq]
    cases hs : sortByWeight allEdges with
    | nil => rfl
    | cons e rest =>
      rw [jkruskalLoop]
      rw [if_pos (by norm_num)]
      rfl

/-- C9 counterexample: calling `union(0, 5)` on a freshly constructed
2-element `DisjointSet` raises no error at all — it returns `true` and
mutates both arrays (the parent array is extended with holes and gets an
`"undefined"` property, and `rank[0]` is incremented), instead of
failing fast with an `IndexOutOfBounds` error before mutation. -/
theorem junion_no_bounds_check_counterexample :
    junion 4 (JDisjointSet.make 2) (.num 0) (.num 5) =
        some (⟨⟨[.num 0, .num 1, .undefV, .undefV, .undefV, .undefV], some (.num 0), none⟩,
               ⟨[.num 1, .num 0], none, none⟩⟩, true) ∧
      (⟨[.num 1, .num 0], none, none⟩ : JArr) ≠ (JDisjointSet.make 2).rank := by
  constructor
  · rfl
  · decide

theorem getD_of_lt {α : Type} (l : List α) (d : α) (k : Nat) (h : k < l.length) :
    l.getD k d = l[k] := by
  simp [List.getD_eq_getElem?_getD, List.getElem?_eq_getElem h]

theorem getD_of_le {α : Type} (l : List α) (d : α) (k : Nat) (h : l.length ≤ k) :
    l.getD k d = d := by
  simp [List.getD_eq_getElem?_getD, List.getElem?_eq_none h]

theorem getD_append_undef (l1 l2 : List JVal) (h2 : ∀ v ∈ l2, v = .undefV) (j : Nat)
    (hj : l1.length ≤ j) : (l1 ++ l2).getD j .undefV = .undefV := by
  induction l1 generalizing j with
  | nil => simpa using getD_all_undefV l2 h2 j
  | cons a l ih =>
    cases j with
    | zero => exact absurd hj (by simp)
    | succ j =>
      simp only [List.cons_append, List.getD_cons_succ]
      exact ih j (by simpa using hj)

theorem jfind_root (fuel : Nat) (p : JArr) (i : JVal) (h : jeq (jget p i) i = true) :
    jfind (fuel + 1) p i = some (p, i) := by
  rw [jfind, if_pos h]

theorem jfind_step (fuel : Nat) (p : JArr) (i : JVal) (h : jeq (jget p i) i = false) :
    jfind (fuel + 1) p i =
      match jfind fuel p (jget p i) with
      | none => none
      | some (p1, r) => some (jset p1 i r, jget (jset p1 i r) i) := by
  rw [jfind, h]
  simp

/-- C9 amended: the code performs no bounds check: on a fresh
`DisjointSet(n)` with `n ≥ 1`, `union(0, n + k)` — whose second index is
out of range — raises no error, returns `true`, and mutates the
structure (the rank array changes), instead of failing fast with
`IndexOutOfBounds` before mutation. -/
theorem junion_out_of_range_mutates (n k : Nat) (hn : 1 ≤ n) :
    ∃ d' : JDisjointSet,
      junion (n + 2) (JDisjointSet.make n) (.num 0) (.num (n + k)) = some (d', true) ∧
        d'.rank ≠ (JDisjointSet.make n).rank := by
  set p := (JDisjointSet.make n).parent with hp
  have hlen : p.elems.length = n := by simp [hp, JDisjointSet.make]
  have hget0 : jget p (.num 0) = .num 0 := by
    show p.elems.getD 0 .undefV = .num 0
    rw [getD_of_lt _ _ 0 (by omega)]
    simp [hp, JDisjointSet.make]
  have hf1 : jfind (n + 2) p (.num 0) = some (p, .num 0) := by
    show jfind ((n + 1) + 1) p (.num 0) = some (p, .num 0)
    exact jfind_root (n + 1) p (.num 0) (by rw [hget0]; rfl)
  have hgetnk : jget p (.num (n + k)) = .undefV := by
    show p.elems.getD (n + k) .undefV = .undefV
    exact getD_of_le _ _ _ (by omega)
  have hgetu : jget p .undefV = .undefV := by
    show p.uprop.getD .undefV = .undefV
    simp [hp, JDisjointSet.make]
  have hfu : jfind (n + 1) p .undefV = some (p, .undefV) := by
    show jfind (n + 1) p .undefV = some (p, .undefV)
    cases n with
    | zero => exact absurd hn (by omega)
    | succ m => exact jfind_root (m + 1) p .undefV (by rw [hgetu]; rfl)
  set q := jset p (.num (n + k)) .undefV with hq
  have hq2 : q = ⟨p.elems ++ List.replicate (n + k - p.elems.length) .undefV ++ [.undefV],
      p.uprop, p.nprop⟩ := by
    rw [hq]
    show jset p (.num (n + k)) .undefV = _
    simp only [jset]
    rw [if_neg (by omega)]
  have hgetq : jget q (.num (n + k)) = .undefV := by
    show q.elems.getD (n + k) .undefV = .undefV
    rw [hq2]
    show (p.elems ++ List.replicate (n + k - p.elems.length) JVal.undefV ++ [JVal.undefV]).getD
      (n + k) .undefV = .undefV
    rw [List.append_assoc]
    refine getD_append_undef _ _ ?_ _ (by omega)
    intro v hv
    rcases List.mem_append.mp hv with hvr | hvs
    · exact (List.mem_replicate.mp hvr).2
    · simpa using hvs
  have hf2 : jfind (n + 2) p (.num (n + k)) = some (q, .undefV) := by
    show jfind ((n + 1) + 1) p (.num (n + k)) = some (q, .undefV)
    rw [jfind_step (n + 1) p (.num (n + k)) (by rw [hgetnk]; rfl), hgetnk, hfu]
    dsimp only
    rw [← hq, hgetq]
  have hranknum : jget (JDisjointSet.make n).rank (.num 0) = .num 0 := by
    show (List.replicate n (JVal.num 0)).getD 0 .undefV = .num 0
    rw [getD_of_lt _ _ 0 (by simpa using hn)]
    simp
  have hrankset : jset (JDisjointSet.make n).rank (.num 0) (.num 1) =
      ⟨(List.replicate n (JVal.num 0)).set 0 (.num 1), none, none⟩ := by
    show jset ⟨List.replicate n (JVal.num 0), none, none⟩ (.num 0) (.num 1) = _
    simp only [jset]
    rw [if_pos (by simpa using hn)]
  refine ⟨⟨jset q .undefV (.num 0), jset (JDisjointSet.make n).rank (.num 0) (.num 1)⟩, ?_, ?_⟩
  · show junion (n + 2) (JDisjointSet.make n) (.num 0) (.num (n + k)) = _
    simp only [junion, ← hp, hf1, hf2]
    rw [hranknum]
    rfl
  · intro hcontra
    rw [hrankset] at hcontra
    have helems := congrArg JArr.elems hcontra
    dsimp only at helems
    have hlhs : ((List.replicate n (JVal.num 0)).set 0 (JVal.num 1)).getD 0 .undefV = .num 1 := by
      rw [getD_of_lt _ _ 0 (by simp; omega)]
      simp
    have hrhs : ((JDisjointSet.make n).rank.elems).getD 0 .undefV = .num 0 := by
      show (List.replicate n (JVal.num 0)).getD 0 .undefV = .num 0
      rw [getD_of_lt _ _ 0 (by simpa using hn)]
      simp
    rw [helems, hrhs] at hlhs
    simp at hlhs

/-- Witness for the amended C9 at `n = 2`, `k = 3` (the `union(0, 5)`
call of the counterexample). -/
theorem junion_out_of_range_mutates_witness :
    ∃ d' : JDisjointSet,
      junion 4 (JDisjointSet.make 2) (.num 0) (.num 5) = some (d', true) ∧
        d'.rank ≠ (JDisjointSet.make 2).rank :=
  junion_out_of_range_mutates 2 3 (by decide)

/-! ## Walk lemmas for the parent array -/

theorem isRoot_of_le_length (p : List Nat) (i : Nat) (h : p.length ≤ i) : isRoot p i := by
  show p.getD i i = i
  exact getD_of_le p i i h

theorem pstep_iterate_fixed (p : List Nat) (r : Nat) (h : isRoot p r) (m : Nat) :
    (pstep p)^[m] r = r := by
  induction m with
  | zero => rfl
  | succ m ih => rw [Function.iterate_succ_apply', ih]; exact h

theorem rootedAt_root (p : List Nat) (r : Nat) (h : isRoot p r) : RootedAt p r r :=
  ⟨0, rfl, h⟩

theorem rootedAt_step (p : List Nat) (j s : Nat) (h : RootedAt p (pstep p j) s) :
    RootedAt p j s := by
  rcases h with ⟨k, hk, hs⟩
  exact ⟨k + 1, by rw [Function.iterate_succ_apply]; exact hk, hs⟩

theorem rootedAt_unique (p : List Nat) (i r s : Nat)
    (hr : RootedAt p i r) (hs : RootedAt p i s) : r = s := by
  rcases hr with ⟨k, hk, hkr⟩
  rcases hs with ⟨l, hl, hlr⟩
  rcases le_total k l with hkl | hlk
  · have : (pstep p)^[l] i = r := by
      have hsplit : (pstep p)^[l - k + k] i = (pstep p)^[l - k] ((pstep p)^[k] i) :=
        Function.iterate_add_apply (pstep p) (l - k) k i
      rw [Nat.sub_add_cancel hkl] at hsplit
      rw [hsplit, hk]
      exact pstep_iterate_fixed p r hkr (l - k)
    rw [← hl, this]
  · have : (pstep p)^[k] i = s := by
      have hsplit : (pstep p)^[k - l + l] i = (pstep p)^[k - l] ((pstep p)^[l] i) :=
        Function.iterate_add_apply (pstep p) (k - l) l i
      rw [Nat.sub_add_cancel hlk] at hsplit
      rw [hsplit, hl]
      exact pstep_iterate_fixed p s hlr (k - l)
    rw [← hk, this]

theorem walk_lt_length (p : List Nat) (hR : RangeOK p) (j : Nat) (hj : j < p.length) :
    ∀ k, (pstep p)^[k] j < p.length := by
  intro k
  induction k generalizing j with
  | zero => simpa using hj
  | succ k ih =>
    rw [Function.iterate_succ_apply]
    refine ih (pstep p j) ?_
    show p.getD j j < p.length
    rw [getD_of_lt p j j hj]
    exact hR _ (List.getElem_mem hj)

theorem rootedAt_lt_length (p : List Nat) (hR : RangeOK p) (i r : Nat)
    (hi : i < p.length) (h : RootedAt p i r) : r < p.length := by
  rcases h with ⟨k, hk, -⟩
  rw [← hk]
  exact walk_lt_length p hR i hi k

theorem pstep_set_ne (p : List Nat) (i r j : Nat) (hne : j ≠ i) :
    pstep (p.set i r) j = pstep p j := by
  show (p.set i r).getD j j = p.getD j j
  rw [List.getD_eq_getElem?_getD, List.getD_eq_getElem?_getD,
    List.getElem?_set_ne (Ne.symm hne)]

theorem pstep_set_self (p : List Nat) (i r : Nat) (hi : i < p.length) :
    pstep (p.set i r) i = r := by
  show (p.set i r).getD i i = r
  rw [List.getD_eq_getElem?_getD, List.getElem?_set_self hi]
  rfl

theorem lt_length_of_not_isRoot (p : List Nat) (i : Nat) (h : ¬ isRoot p i) :
    i < p.length := by
  by_contra hle
  exact h (isRoot_of_le_length p i (by omega))

/-- Path compression step: pointing `i` at its own representative `r`
changes no representative. -/
theorem setRoot_isRoot_iff (p : List Nat) (i r : Nat) (hroot : RootedAt p i r)
    (j : Nat) : isRoot (p.set i r) j ↔ isRoot p j := by
  by_cases hji : j = i
  · rw [hji]
    by_cases hri : isRoot p i
    · have hrr : r = i := rootedAt_unique p i r i hroot (rootedAt_root p i hri)
      rw [hrr]
      constructor
      · intro _; exact hri
      · intro _
        by_cases hl : i < p.length
        · show pstep (p.set i i) i = i
          exact pstep_set_self p i i hl
        · exact isRoot_of_le_length _ i (by simpa using Nat.le_of_not_lt hl)
    · have hl : i < p.length := lt_length_of_not_isRoot p i hri
      have hrne : r ≠ i := by
        intro hc
        rcases hroot with ⟨-, -, hr⟩
        rw [hc] at hr
        exact hri hr
      constructor
      · intro hc
        have hps : pstep (p.set i r) i = r := pstep_set_self p i r hl
        have hri2 : r = i := by rw [← hps]; exact hc
        exact absurd hri2 hrne
      · intro hc; exact absurd hc hri
  · show pstep (p.set i r) j = j ↔ pstep p j = j
    rw [pstep_set_ne p i r j hji]

theorem setRoot_rootedAt_of (p : List Nat) (i r : Nat) (hroot : RootedAt p i r) :
    ∀ (k j s : Nat), (pstep p)^[k] j = s → isRoot p s → RootedAt (p.set i r) j s := by
  intro k
  induction k with
  | zero =>
    intro j s hjs hs
    rw [Function.iterate_zero_apply] at hjs
    subst hjs
    exact rootedAt_root _ j ((setRoot_isRoot_iff p i r hroot j).mpr hs)
  | succ k ih =>
    intro j s hjs hs
    by_cases hji : j = i
    · rw [hji] at hjs ⊢
      have hs_eq : s = r := rootedAt_unique p i s r ⟨k + 1, hjs, hs⟩ hroot
      by_cases hri : isRoot p i
      · have hir : r = i := rootedAt_unique p i r i hroot (rootedAt_root p i hri)
        rw [hs_eq, hir]
        exact rootedAt_root _ i
          ((setRoot_isRoot_iff p i i (rootedAt_root p i hri) i).mpr hri)
      · have hl : i < p.length := lt_length_of_not_isRoot p i hri
        rw [hs_eq]
        refine ⟨1, ?_, (setRoot_isRoot_iff p i r hroot r).mpr ?_⟩
        · show pstep (p.set i r) i = r
          exact pstep_set_self p i r hl
        · rcases hroot with ⟨-, -, hr⟩
          exact hr
    · have hstep : pstep (p.set i r) j = pstep p j := pstep_set_ne p i r j hji
      have ihres := ih (pstep p j) s (by rwa [Function.iterate_succ_apply] at hjs) hs
      refine rootedAt_step _ j s ?_
      rw [hstep]
      exact ihres

theorem setRoot_rootedAt_to (p : List Nat) (i r : Nat) (hroot : RootedAt p i r) :
    ∀ (k j s : Nat), (pstep (p.set i r))^[k] j = s → isRoot (p.set i r) s →
      RootedAt p j s := by
  intro k
  induction k with
  | zero =>
    intro j s hjs hs
    rw [Function.iterate_zero_apply] at hjs
    subst hjs
    exact rootedAt_root p j ((setRoot_isRoot_iff p i r hroot j).mp hs)
  | succ k ih =>
    intro j s hjs hs
    by_cases hji : j = i
    · rw [hji] at hjs ⊢
      have hproot : isRoot p r := by
        rcases hroot with ⟨-, -, hr⟩; exact hr
      have hrs : isRoot (p.set i r) r := (setRoot_isRoot_iff p i r hroot r).mpr hproot
      by_cases hri : isRoot p i
      · have hir : r = i := rootedAt_unique p i r i hroot (rootedAt_root p i hri)
        rw [hir] at hjs hrs
        have hs_eq : s = i := by
          rw [← hjs]
          exact pstep_iterate_fixed _ i hrs (k + 1)
        rw [hs_eq]
        exact rootedAt_root p i hri
      · have hl : i < p.length := lt_length_of_not_isRoot p i hri
        have hs_eq : s = r := by
          rw [← hjs, Function.iterate_succ_apply, pstep_set_self p i r hl]
          exact pstep_iterate_fixed _ r hrs k
        rw [hs_eq]
        exact hroot
    · rw [Function.iterate_succ_apply, pstep_set_ne p i r j hji] at hjs
      exact rootedAt_step p j s (ih (pstep p j) s hjs hs)

/-- Path compression step: pointing `i` at its own representative
changes nobody's representative. -/
theorem setRoot_rootedAt_iff (p : List Nat) (i r : Nat) (hroot : RootedAt p i r)
    (j s : Nat) : RootedAt (p.set i r) j s ↔ RootedAt p j s := by
  constructor
  · intro h
    rcases h with ⟨k, hk, hs⟩
    exact setRoot_rootedAt_to p i r hroot k j s hk hs
  · intro h
    rcases h with ⟨k, hk, hs⟩
    exact setRoot_rootedAt_of p i r hroot k j s hk hs

theorem setRoot_rangeOK (p : List Nat) (i r : Nat) (hR : RangeOK p)
    (hr : r < p.length) : RangeOK (p.set i r) := by
  intro j hj
  rw [List.length_set]
  rcases List.mem_or_eq_of_mem_set hj with hjm | rfl
  · exact hR j hjm
  · exact hr

/-- `find` computed with enough fuel returns the representative reached by
the parent walk, preserves lengths, representatives and everyone's
representative assignment (path compression is invisible to `RootedAt`). -/
theorem findAux_ok (p : List Nat) (hR : RangeOK p) :
    ∀ (d i fuel : Nat), isRoot p ((pstep p)^[d] i) → d < fuel →
    ∃ p', findAux fuel p i = some (p', (pstep p)^[d] i) ∧
      p'.length = p.length ∧ RangeOK p' ∧
      (∀ j s, RootedAt p' j s ↔ RootedAt p j s) ∧
      (∀ j, isRoot p' j ↔ isRoot p j) := by
  intro d
  induction d with
  | zero =>
    intro i fuel hroot hfuel
    cases fuel with
    | zero => omega
    | succ fuel =>
      rw [Function.iterate_zero_apply] at hroot
      refine ⟨p, ?_, rfl, hR, fun j s => Iff.rfl, fun j => Iff.rfl⟩
      rw [Function.iterate_zero_apply]
      rw [findAux, if_pos (show p.getD i i = i from hroot)]
  | succ d ih =>
    intro i fuel hroot hfuel
    cases fuel with
    | zero => omega
    | succ fuel =>
      by_cases hri : isRoot p i
      · have hfix : (pstep p)^[d + 1] i = i := pstep_iterate_fixed p i hri (d + 1)
        refine ⟨p, ?_, rfl, hR, fun j s => Iff.rfl, fun j => Iff.rfl⟩
        rw [hfix]
        rw [findAux, if_pos (show p.getD i i = i from hri)]
      · have hl : i < p.length := lt_length_of_not_isRoot p i hri
        have hroot' : isRoot p ((pstep p)^[d] (pstep p i)) := by
          rwa [← Function.iterate_succ_apply]
        rcases ih (pstep p i) fuel hroot' (by omega) with
          ⟨p1, hrun1, hlen1, hR1, hiff1, hriff1⟩
        set r := (pstep p)^[d] (pstep p i) with hrdef
        have hrall : (pstep p)^[d + 1] i = r := Function.iterate_succ_apply (pstep p) d i
        have hrootAt : RootedAt p i r := ⟨d + 1, hrall, hroot'⟩
        have hrootAt1 : RootedAt p1 i r := (hiff1 i r).mpr hrootAt
        have hrlen : r < p.length := rootedAt_lt_length p hR i r hl hrootAt
        refine ⟨p1.set i r, ?_, ?_, ?_, ?_, ?_⟩
        · rw [hrall]
          rw [findAux, if_neg (show ¬ p.getD i i = i from hri)]
          have hg : p.getD i i = pstep p i := rfl
          rw [hg, hrun1]
          dsimp only
          have hps : (p1.set i r).getD i i = r :=
            pstep_set_self p1 i r (by rw [hlen1]; exact hl)
          rw [hps]
        · rw [List.length_set]
          exact hlen1
        · exact setRoot_rangeOK p1 i r hR1 (by rw [hlen1]; exact hrlen)
        · intro j s
          exact (setRoot_rootedAt_iff p1 i r hrootAt1 j s).trans (hiff1 j s)
        · intro j
          exact (setRoot_isRoot_iff p1 i r hrootAt1 j).trans (hriff1 j)

/-- On an invariant-satisfying state, every walk reaches its
representative within `p.length` steps (the walk visits distinct nodes). -/
theorem rootedAt_dist_bound (p : List Nat) (hR : RangeOK p) (i : Nat)
    (h : ∃ r, RootedAt p i r) :
    ∃ d, d ≤ p.length ∧ isRoot p ((pstep p)^[d] i) := by
  by_cases hl : i < p.length
  · rcases h with ⟨r, k, hk, hr⟩
    have hex : ∃ m, isRoot p ((pstep p)^[m] i) := ⟨k, by rw [hk]; exact hr⟩
    set m := Nat.find hex with hm
    have hmroot : isRoot p ((pstep p)^[m] i) := Nat.find_spec hex
    have key : ∀ a b, a < b → b ≤ m → (pstep p)^[a] i ≠ (pstep p)^[b] i := by
      intro a b hab hbm heq
      have hroot2 : isRoot p ((pstep p)^[m - b + a] i) := by
        have h2 : (pstep p)^[m - b + a] i = (pstep p)^[m - b] ((pstep p)^[a] i) :=
          Function.iterate_add_apply (pstep p) (m - b) a i
        rw [h2, heq, ← Function.iterate_add_apply, Nat.sub_add_cancel hbm]
        exact hmroot
      exact Nat.find_min hex (by omega) hroot2
    have hmaps : ∀ t ∈ Finset.range (m + 1), (pstep p)^[t] i ∈ Finset.range p.length := by
      intro t _
      simp only [Finset.mem_range]
      exact walk_lt_length p hR i hl t
    have hinj : Set.InjOn (fun t => (pstep p)^[t] i) (Finset.range (m + 1)) := by
      intro a ha b hb hab
      simp only [Finset.coe_range, Set.mem_Iio] at ha hb
      by_contra hne
      rcases Nat.lt_or_ge a b with h1 | h1
      · exact key a b h1 (by omega) hab
      · have h2 : b < a := by omega
        exact key b a h2 (by omega) hab.symm
    have hcard := Finset.card_le_card_of_injOn _ hmaps hinj
    simp only [Finset.card_range] at hcard
    exact ⟨m, by omega, hmroot⟩
  · refine ⟨0, by omega, ?_⟩
    rw [Function.iterate_zero_apply]
    exact isRoot_of_le_length p i (by omega)

/-- Full `find` specification on invariant states with fuel at least
`p.length + 1`: the call succeeds, returns the representative of `i`, and
path compression preserves the invariant, everyone's representative, the
set of representatives, and the array length. -/
theorem findAux_spec (p : List Nat) (hInv : DSUInv p) (i fuel : Nat)
    (hfuel : p.length + 1 ≤ fuel) :
    ∃ p' r, findAux fuel p i = some (p', r) ∧ RootedAt p i r ∧
      p'.length = p.length ∧ DSUInv p' ∧
      (∀ j s, RootedAt p' j s ↔ RootedAt p j s) ∧
      (∀ j, isRoot p' j ↔ isRoot p j) := by
  rcases hInv with ⟨hR, hall⟩
  rcases rootedAt_dist_bound p hR i (hall i) with ⟨d, hd, hroot⟩
  rcases findAux_ok p hR d i fuel hroot (by omega) with ⟨p', hrun, hlen, hR', hiff, hriff⟩
  refine ⟨p', (pstep p)^[d] i, hrun, ⟨d, rfl, hroot⟩, hlen, ⟨hR', fun j => ?_⟩, hiff, hriff⟩
  rcases hall j with ⟨s, hs⟩
  exact ⟨s, (hiff j s).mpr hs⟩

/-! ## Linking one representative under another (the merge write) -/

theorem linkRoot_isRoot_iff (p : List Nat) (a b : Nat)
    (_hb : isRoot p b) (hab : a ≠ b) (hal : a < p.length) (j : Nat) :
    isRoot (p.set a b) j ↔ (isRoot p j ∧ j ≠ a) := by
  by_cases hja : j = a
  · rw [hja]
    have h1 : pstep (p.set a b) a = b := pstep_set_self p a b hal
    constructor
    · intro hc
      have hba : b = a := by rw [← h1]; exact hc
      exact absurd hba (Ne.symm hab)
    · intro hc
      exact absurd rfl hc.2
  · constructor
    · intro hc
      refine ⟨?_, hja⟩
      show pstep p j = j
      rw [← pstep_set_ne p a b j hja]
      exact hc
    · intro hc
      show pstep (p.set a b) j = j
      rw [pstep_set_ne p a b j hja]
      exact hc.1

theorem linkRoot_rootedAt_of (p : List Nat) (a b : Nat) (ha : isRoot p a)
    (hb : isRoot p b) (hab : a ≠ b) (hal : a < p.length) :
    ∀ (k j s : Nat), (pstep (p.set a b))^[k] j = s → isRoot (p.set a b) s →
      ∃ t, RootedAt p j t ∧ s = (if t = a then b else t) := by
  intro k
  induction k with
  | zero =>
    intro j s hjs hs
    rw [Function.iterate_zero_apply] at hjs
    subst hjs
    rcases (linkRoot_isRoot_iff p a b hb hab hal j).mp hs with ⟨hroot, hne⟩
    exact ⟨j, rootedAt_root p j hroot, by rw [if_neg hne]⟩
  | succ k ih =>
    intro j s hjs hs
    by_cases hja : j = a
    · rw [hja] at hjs ⊢
      have h1 : pstep (p.set a b) a = b := pstep_set_self p a b hal
      have hbroot : isRoot (p.set a b) b :=
        (linkRoot_isRoot_iff p a b hb hab hal b).mpr ⟨hb, Ne.symm hab⟩
      have hs_eq : s = b := by
        rw [← hjs, Function.iterate_succ_apply, h1]
        exact pstep_iterate_fixed _ b hbroot k
      exact ⟨a, rootedAt_root p a ha, by rw [if_pos rfl, hs_eq]⟩
    · rw [Function.iterate_succ_apply, pstep_set_ne p a b j hja] at hjs
      rcases ih (pstep p j) s hjs hs with ⟨t, hroot, hite⟩
      exact ⟨t, rootedAt_step p j t hroot, hite⟩

theorem linkRoot_rootedAt_to (p : List Nat) (a b : Nat) (ha : isRoot p a)
    (hb : isRoot p b) (hab : a ≠ b) (hal : a < p.length) :
    ∀ (k j s : Nat), (pstep p)^[k] j = s → isRoot p s →
      RootedAt (p.set a b) j (if s = a then b else s) := by
  intro k
  induction k with
  | zero =>
    intro j s hjs hs
    rw [Function.iterate_zero_apply] at hjs
    subst hjs
    by_cases hjaeq : j = a
    · rw [if_pos hjaeq, hjaeq]
      refine ⟨1, ?_, (linkRoot_isRoot_iff p a b hb hab hal b).mpr ⟨hb, Ne.symm hab⟩⟩
      show pstep (p.set a b) a = b
      exact pstep_set_self p a b hal
    · rw [if_neg hjaeq]
      exact rootedAt_root _ j ((linkRoot_isRoot_iff p a b hb hab hal j).mpr ⟨hs, hjaeq⟩)
  | succ k ih =>
    intro j s hjs hs
    by_cases hja : j = a
    · rw [hja] at hjs ⊢
      have hs_eq : s = a := by
        rw [← hjs]
        exact pstep_iterate_fixed p a ha (k + 1)
      rw [hs_eq, if_pos rfl]
      refine ⟨1, ?_, (linkRoot_isRoot_iff p a b hb hab hal b).mpr ⟨hb, Ne.symm hab⟩⟩
      show pstep (p.set a b) a = b
      exact pstep_set_self p a b hal
    · rw [Function.iterate_succ_apply] at hjs
      have hres := ih (pstep p j) s hjs hs
      refine rootedAt_step _ j _ ?_
      rw [pstep_set_ne p a b j hja]
      exact hres

theorem linkRoot_rootedAt_iff (p : List Nat) (a b : Nat) (ha : isRoot p a)
    (hb : isRoot p b) (hab : a ≠ b) (hal : a < p.length) (j s : Nat) :
    RootedAt (p.set a b) j s ↔
      ∃ t, RootedAt p j t ∧ s = (if t = a then b else t) := by
  constructor
  · intro h
    rcases h with ⟨k, hk, hs⟩
    exact linkRoot_rootedAt_of p a b ha hb hab hal k j s hk hs
  · intro h
    rcases h with ⟨t, ⟨k, hk, ht⟩, hite⟩
    rw [hite]
    exact linkRoot_rootedAt_to p a b ha hb hab hal k j t hk ht

theorem rootSet_congr (p p' : List Nat) (hlen : p'.length = p.length)
    (hriff : ∀ j, isRoot p' j ↔ isRoot p j) : rootSet p' = rootSet p := by
  unfold rootSet
  rw [hlen]
  ext j
  simp only [Finset.mem_filter, Finset.mem_range]
  constructor
  · rintro ⟨h1, h2⟩
    exact ⟨h1, (hriff j).mp h2⟩
  · rintro ⟨h1, h2⟩
    exact ⟨h1, (hriff j).mpr h2⟩

theorem linkRoot_rootSet (p : List Nat) (a b : Nat)
    (hb : isRoot p b) (hab : a ≠ b) (hal : a < p.length) :
    rootSet (p.set a b) = (rootSet p).erase a := by
  ext j
  simp only [rootSet, Finset.mem_filter, Finset.mem_range, Finset.mem_erase,
    List.length_set]
  constructor
  · rintro ⟨hjl, hroot⟩
    rcases (linkRoot_isRoot_iff p a b hb hab hal j).mp hroot with ⟨h1, h2⟩
    exact ⟨h2, hjl, h1⟩
  · rintro ⟨h2, hjl, h1⟩
    exact ⟨hjl, (linkRoot_isRoot_iff p a b hb hab hal j).mpr ⟨h1, h2⟩⟩

/-! ## Initial state -/

theorem make_isRoot (n i : Nat) : isRoot (List.range n) i := by
  show (List.range n).getD i i = i
  by_cases hl : i < n
  · rw [getD_of_lt _ _ _ (by simpa using hl)]
    simp
  · exact getD_of_le _ _ _ (by simpa using Nat.le_of_not_lt hl)

theorem make_DSUInv (n : Nat) : DSUInv (List.range n) := by
  constructor
  · intro j hj
    simpa using List.mem_range.mp hj
  · intro i
    exact ⟨i, rootedAt_root _ i (make_isRoot n i)⟩

theorem make_rootedAt (n i r : Nat) (h : RootedAt (List.range n) i r) : r = i :=
  rootedAt_unique _ i r i h (rootedAt_root _ i (make_isRoot n i))

theorem make_rootSet (n : Nat) : rootSet (List.range n) = Finset.range n := by
  unfold rootSet
  rw [List.length_range]
  exact Finset.filter_true_of_mem (fun j _ => make_isRoot n j)

/-! ## The `union` specification -/

theorem rootEq_refl (p : List Nat) (hInv : DSUInv p) (u : Nat) : rootEq p u u := by
  rcases hInv.2 u with ⟨r, hr⟩
  exact ⟨r, hr, hr⟩

theorem rootEq_symm (p : List Nat) (u v : Nat) (h : rootEq p u v) : rootEq p v u := by
  rcases h with ⟨r, h1, h2⟩
  exact ⟨r, h2, h1⟩

theorem rootEq_trans (p : List Nat) (u v w : Nat) (h1 : rootEq p u v)
    (h2 : rootEq p v w) : rootEq p u w := by
  rcases h1 with ⟨r, hur, hvr⟩
  rcases h2 with ⟨s, hvs, hws⟩
  have hrs : r = s := rootedAt_unique p v r s hvr hvs
  exact ⟨r, hur, by rw [hrs]; exact hws⟩

theorem rootEq_of_roots (p : List Nat) (u v ru rv : Nat) (hu : RootedAt p u ru)
    (hv : RootedAt p v rv) : rootEq p u v ↔ ru = rv := by
  constructor
  · rintro ⟨r, h1, h2⟩
    rw [rootedAt_unique p u ru r hu h1, rootedAt_unique p v rv r hv h2]
  · intro h
    exact ⟨ru, hu, by rw [h]; exact hv⟩

/-- Complete specification of a `union(x, y)` call on an invariant state
with in-range arguments and sufficient fuel: it succeeds; on equal
representatives it returns `false`, leaves `rank` and every
representative assignment unchanged; on distinct representatives it
returns `true` and exactly merges the two classes, one representative
(the loser `l`) pointing at the other (the winner `w`). -/
theorem unionAux_spec (d : DisjointSet) (x y fuel : Nat)
    (hInv : DSUInv d.parent) (hx : x < d.parent.length) (hy : y < d.parent.length)
    (hfuel : d.parent.length + 1 ≤ fuel) :
    ∃ (d' : DisjointSet) (rx ry : Nat),
      RootedAt d.parent x rx ∧ RootedAt d.parent y ry ∧
      d'.parent.length = d.parent.length ∧ DSUInv d'.parent ∧
      ((rx = ry ∧ unionAux fuel d x y = some (d', false) ∧ d'.rank = d.rank ∧
          (∀ j s, RootedAt d'.parent j s ↔ RootedAt d.parent j s) ∧
          rootSet d'.parent = rootSet d.parent) ∨
       (rx ≠ ry ∧ unionAux fuel d x y = some (d', true) ∧
          (∃ w l, ((w = rx ∧ l = ry) ∨ (w = ry ∧ l = rx)) ∧
            (∀ j s, RootedAt d'.parent j s ↔
              ∃ t, RootedAt d.parent j t ∧ s = (if t = l then w else t)) ∧
            rootSet d'.parent = (rootSet d.parent).erase l))) := by
  rcases findAux_spec d.parent hInv x fuel hfuel with
    ⟨p1, rx, hrun1, hrootx, hlen1, hInv1, hiff1, hriff1⟩
  rcases findAux_spec p1 hInv1 y fuel (by rw [hlen1]; exact hfuel) with
    ⟨p2, ry, hrun2, hrooty1, hlen2, hInv2, hiff2, hriff2⟩
  have hrooty : RootedAt d.parent y ry := (hiff1 y ry).mp hrooty1
  have hlen21 : p2.length = d.parent.length := hlen2.trans hlen1
  have hiff21 : ∀ j s, RootedAt p2 j s ↔ RootedAt d.parent j s :=
    fun j s => (hiff2 j s).trans (hiff1 j s)
  have hriff21 : ∀ j, isRoot p2 j ↔ isRoot d.parent j :=
    fun j => (hriff2 j).trans (hriff1 j)
  have hrootx2 : RootedAt p2 x rx := (hiff21 x rx).mpr hrootx
  have hrooty2 : RootedAt p2 y ry := (hiff21 y ry).mpr hrooty
  have hisrx : isRoot p2 rx := by
    rcases hrootx2 with ⟨-, -, hr⟩
    exact hr
  have hisry : isRoot p2 ry := by
    rcases hrooty2 with ⟨-, -, hr⟩
    exact hr
  have hrxlen : rx < p2.length := by
    rw [hlen21]
    exact rootedAt_lt_length d.parent hInv.1 x rx hx hrootx
  have hrylen : ry < p2.length := by
    rw [hlen21]
    exact rootedAt_lt_length d.parent hInv.1 y ry hy hrooty
  by_cases hxy : rx = ry
  · refine ⟨⟨p2, d.rank⟩, rx, ry, hrootx, hrooty, hlen21, ?_, Or.inl ⟨hxy, ?_, rfl, hiff21, ?_⟩⟩
    · exact hInv2
    · rw [unionAux, hrun1]
      dsimp only
      rw [hrun2]
      dsimp only
      rw [if_neg (show ¬ rx ≠ ry from fun h => h hxy)]
    · exact rootSet_congr d.parent p2 hlen21 hriff21
  · have hmain : ∀ (w l : Nat), isRoot p2 w → isRoot p2 l → l ≠ w →
        l < p2.length → w < p2.length →
        DSUInv (p2.set l w) ∧
        (∀ j s, RootedAt (p2.set l w) j s ↔
          ∃ t, RootedAt d.parent j t ∧ s = (if t = l then w else t)) ∧
        rootSet (p2.set l w) = (rootSet d.parent).erase l := by
      intro w l hw hl hlw hllen hwlen
      refine ⟨⟨setRoot_rangeOK p2 l w hInv2.1 hwlen, ?_⟩, ?_, ?_⟩
      · intro j
        rcases hInv2.2 j with ⟨t, ht⟩
        exact ⟨if t = l then w else t,
          (linkRoot_rootedAt_iff p2 l w hl hw hlw hllen j _).mpr ⟨t, ht, rfl⟩⟩
      · intro j s
        rw [linkRoot_rootedAt_iff p2 l w hl hw hlw hllen j s]
        exact exists_congr (fun t => and_congr_left (fun _ => hiff21 j t))
      · rw [linkRoot_rootSet p2 l w hw hlw hllen]
        rw [rootSet_congr d.parent p2 hlen21 hriff21]
    have hlenset : ∀ (l w : Nat), (p2.set l w).length = d.parent.length := by
      intro l w
      rw [List.length_set]
      exact hlen21
    by_cases hgt : d.rank.getD rx 0 > d.rank.getD ry 0
    · rcases hmain rx ry hisrx hisry (Ne.symm hxy) hrylen hrxlen with ⟨hI, hiffm, hrs⟩
      refine ⟨⟨p2.set ry rx, d.rank⟩, rx, ry, hrootx, hrooty, hlenset ry rx, hI,
        Or.inr ⟨hxy, ?_, rx, ry, Or.inl ⟨rfl, rfl⟩, hiffm, hrs⟩⟩
      rw [unionAux, hrun1]
      dsimp only
      rw [hrun2]
      dsimp only
      rw [if_pos hxy, if_pos hgt]
    · by_cases hlt : d.rank.getD rx 0 < d.rank.getD ry 0
      · rcases hmain ry rx hisry hisrx hxy hrxlen hrylen with ⟨hI, hiffm, hrs⟩
        refine ⟨⟨p2.set rx ry, d.rank⟩, rx, ry, hrootx, hrooty, hlenset rx ry, hI,
          Or.inr ⟨hxy, ?_, ry, rx, Or.inr ⟨rfl, rfl⟩, hiffm, hrs⟩⟩
        rw [unionAux, hrun1]
        dsimp only
        rw [hrun2]
        dsimp only
        rw [if_pos hxy, if_neg hgt, if_pos hlt]
      · rcases hmain rx ry hisrx hisry (Ne.symm hxy) hrylen hrxlen with ⟨hI, hiffm, hrs⟩
        refine ⟨⟨p2.set ry rx, d.rank.set rx (d.rank.getD rx 0 + 1)⟩, rx, ry,
          hrootx, hrooty, hlenset ry rx, hI,
          Or.inr ⟨hxy, ?_, rx, ry, Or.inl ⟨rfl, rfl⟩, hiffm, hrs⟩⟩
        rw [unionAux, hrun1]
        dsimp only
        rw [hrun2]
        dsimp only
        rw [if_pos hxy, if_neg hgt, if_neg hlt]

theorem getD_set_self_zero (l : List Nat) (i v : Nat) (h : i < l.length) :
    (l.set i v).getD i 0 = v := by
  rw [getD_of_lt _ _ _ (by simpa using h)]
  simp

/-- C4: a `union(x, y)` whose representatives `rx`, `ry` differ returns
`true` and merges by rank: the root of strictly greater rank becomes the
parent of the other root; on equal rank the root of `x` becomes the
parent of the root of `y` — never the reverse — and the rank of the root
of `x` increases by exactly one. -/
theorem unionAux_rank_behaviour (d : DisjointSet) (x y fuel : Nat)
    (hInv : DSUInv d.parent) (hx : x < d.parent.length) (hy : y < d.parent.length)
    (hranklen : d.rank.length = d.parent.length)
    (hfuel : d.parent.length + 1 ≤ fuel)
    (p1 p2 : List Nat) (rx ry : Nat)
    (hf1 : findAux fuel d.parent x = some (p1, rx))
    (hf2 : findAux fuel p1 y = some (p2, ry))
    (hne : rx ≠ ry) :
    (d.rank.getD ry 0 < d.rank.getD rx 0 →
      unionAux fuel d x y = some (⟨p2.set ry rx, d.rank⟩, true) ∧
        (p2.set ry rx).getD ry 0 = rx) ∧
    (d.rank.getD rx 0 < d.rank.getD ry 0 →
      unionAux fuel d x y = some (⟨p2.set rx ry, d.rank⟩, true) ∧
        (p2.set rx ry).getD rx 0 = ry) ∧
    (d.rank.getD rx 0 = d.rank.getD ry 0 →
      unionAux fuel d x y =
          some (⟨p2.set ry rx, d.rank.set rx (d.rank.getD rx 0 + 1)⟩, true) ∧
        (p2.set ry rx).getD ry 0 = rx ∧
        (d.rank.set rx (d.rank.getD rx 0 + 1)).getD rx 0 = d.rank.getD rx 0 + 1) := by
  rcases findAux_spec d.parent hInv x fuel hfuel with
    ⟨p1', rx', hrun1, hrootx, hlen1, hInv1, hiff1, hriff1⟩
  have heq1 : p1' = p1 ∧ rx' = rx := by
    have h := hrun1.symm.trans hf1
    simp only [Option.some.injEq, Prod.mk.injEq] at h
    exact h
  obtain ⟨rfl, rfl⟩ := heq1
  rcases findAux_spec p1' hInv1 y fuel (by rw [hlen1]; exact hfuel) with
    ⟨p2', ry', hrun2, hrooty1, hlen2, hInv2, hiff2, hriff2⟩
  have heq2 : p2' = p2 ∧ ry' = ry := by
    have h := hrun2.symm.trans hf2
    simp only [Option.some.injEq, Prod.mk.injEq] at h
    exact h
  obtain ⟨rfl, rfl⟩ := heq2
  have hrooty : RootedAt d.parent y ry' := (hiff1 y ry').mp hrooty1
  have hrxlen : rx' < d.parent.length :=
    rootedAt_lt_length d.parent hInv.1 x rx' hx hrootx
  have hrylen : ry' < d.parent.length :=
    rootedAt_lt_length d.parent hInv.1 y ry' hy hrooty
  have hrxlen2 : rx' < p2'.length := by rw [hlen2, hlen1]; exact hrxlen
  have hrylen2 : ry' < p2'.length := by rw [hlen2, hlen1]; exact hrylen
  refine ⟨?_, ?_, ?_⟩
  · intro hgt
    constructor
    · rw [unionAux, hf1]
      dsimp only
      rw [hf2]
      dsimp only
      rw [if_pos hne, if_pos hgt]
    · exact getD_set_self_zero p2' ry' rx' hrylen2
  · intro hlt
    have hgt : ¬ d.rank.getD ry' 0 < d.rank.getD rx' 0 := by omega
    constructor
    · rw [unionAux, hf1]
      dsimp only
      rw [hf2]
      dsimp only
      rw [if_pos hne, if_neg hgt, if_pos hlt]
    · exact getD_set_self_zero p2' rx' ry' hrxlen2
  · intro heq
    have hgt : ¬ d.rank.getD ry' 0 < d.rank.getD rx' 0 := by omega
    have hlt : ¬ d.rank.getD rx' 0 < d.rank.getD ry' 0 := by omega
    refine ⟨?_, getD_set_self_zero p2' ry' rx' hrylen2, ?_⟩
    · rw [unionAux, hf1]
      dsimp only
      rw [hf2]
      dsimp only
      rw [if_pos hne, if_neg hgt, if_neg hlt]
    · exact getD_set_self_zero d.rank rx' _ (by rw [hranklen]; exact hrxlen)

/-- Witness for C4 on `new DisjointSet(2)` with `union(0, 1)` (equal-rank
case: root of `x` becomes parent of root of `y`, its rank becomes 1). -/
theorem unionAux_rank_behaviour_witness :
    unionAux 3 (DisjointSet.make 2) 0 1 = some (⟨[0, 0], [1, 0]⟩, true) := by
  have h := unionAux_rank_behaviour (DisjointSet.make 2) 0 1 3
    (make_DSUInv 2) (by decide) (by decide) (by decide) (by decide)
    [0, 1] [0, 1] 0 1 (by decide) (by decide) (by decide)
  have h3 := (h.2.2 (by decide)).1
  exact h3.trans (by decide)

/-- C5 counterexample: a concrete reachable state (after `union(0,1)`,
`union(2,3)`, `union(1,3)` on `new DisjointSet(4)`) on which the
same-set call `union(3, 0)` returns `false` but mutates `parent`: path
compression rewrites `parent[3]` from `2` to `0`. -/
theorem unionAux_same_set_mutates_counterexample :
    unionAux 5 (DisjointSet.make 4) 0 1 = some (⟨[0, 0, 2, 3], [1, 0, 0, 0]⟩, true) ∧
    unionAux 5 ⟨[0, 0, 2, 3], [1, 0, 0, 0]⟩ 2 3 =
      some (⟨[0, 0, 2, 2], [1, 0, 1, 0]⟩, true) ∧
    unionAux 5 ⟨[0, 0, 2, 2], [1, 0, 1, 0]⟩ 1 3 =
      some (⟨[0, 0, 0, 2], [2, 0, 1, 0]⟩, true) ∧
    unionAux 5 ⟨[0, 0, 0, 2], [2, 0, 1, 0]⟩ 3 0 =
      some (⟨[0, 0, 0, 0], [2, 0, 1, 0]⟩, false) ∧
    ([0, 0, 0, 0] : List Nat) ≠ [0, 0, 0, 2] := by
  decide

/-- C5 amended: a `union(x, y)` on vertices that already share a
representative returns `false` and performs no union-specific mutation:
`rank` is unchanged and every vertex keeps its representative (the
partition is untouched) — but the two `find` calls may still rewrite
`parent` entries by path compression. -/
theorem unionAux_same_set (d : DisjointSet) (x y fuel : Nat)
    (hInv : DSUInv d.parent) (hx : x < d.parent.length) (hy : y < d.parent.length)
    (hfuel : d.parent.length + 1 ≤ fuel) (hsame : rootEq d.parent x y) :
    ∃ d', unionAux fuel d x y = some (d', false) ∧ d'.rank = d.rank ∧
      (∀ j s, RootedAt d'.parent j s ↔ RootedAt d.parent j s) := by
  rcases unionAux_spec d x y fuel hInv hx hy hfuel with
    ⟨d', rx, ry, hrx, hry, hlen, hI, hcase⟩
  have hrxry : rx = ry := (rootEq_of_roots d.parent x y rx ry hrx hry).mp hsame
  rcases hcase with ⟨-, hrun, hrk, hiff, -⟩ | ⟨hne, -⟩
  · exact ⟨d', hrun, hrk, hiff⟩
  · exact absurd hrxry hne

/-- Witness for the amended C5: `union(0, 0)` on `new DisjointSet(2)`. -/
theorem unionAux_same_set_witness :
    ∃ d', unionAux 3 (DisjointSet.make 2) 0 0 = some (d', false) ∧
      d'.rank = (DisjointSet.make 2).rank ∧
      (∀ j s, RootedAt d'.parent j s ↔ RootedAt (DisjointSet.make 2).parent j s) :=
  unionAux_same_set (DisjointSet.make 2) 0 0 3 (make_DSUInv 2)
    (by decide) (by decide) (by decide)
    (rootEq_refl _ (make_DSUInv 2) 0)

/-! ## C3: invariants of all reachable states -/

theorem merge_root_cases (ru rv rx ry w l : Nat) (hne : rx ≠ ry)
    (hwl : (w = rx ∧ l = ry) ∨ (w = ry ∧ l = rx)) :
    ((if ru = l then w else ru) = (if rv = l then w else rv)) ↔
      (ru = rv ∨ (ru = rx ∧ ry = rv) ∨ (ru = ry ∧ rx = rv)) := by
  rcases hwl with ⟨rfl, rfl⟩ | ⟨rfl, rfl⟩ <;>
    by_cases h1 : ru = l <;> by_cases h2 : rv = l <;>
      simp [h1, h2] <;> omega

/-- The inductive invariant of reachable states: the union-find
invariant holds, the parent array keeps length `n`, and the abstract
merge-history equivalence coincides with equality of representatives. -/
theorem reachableWith_inv (n : Nat) (d : DisjointSet) (R : Nat → Nat → Prop)
    (h : ReachableWith n d R) :
    DSUInv d.parent ∧ d.parent.length = n ∧
      (∀ u v, u < n → v < n → (R u v ↔ rootEq d.parent u v)) := by
  induction h with
  | init =>
    refine ⟨make_DSUInv n, List.length_range n, fun u v hu hv => ?_⟩
    constructor
    · rintro rfl
      exact rootEq_refl _ (make_DSUInv n) u
    · rintro ⟨r, h1, h2⟩
      rw [← make_rootedAt n u r h1, ← make_rootedAt n v r h2]
  | @find d R p' r i hi hreach hrun ih =>
    rcases ih with ⟨hInv, hlen, hR⟩
    rcases findAux_spec d.parent hInv i (n + 1) (by rw [hlen]) with
      ⟨p'', r'', hrun2, hroot, hlen2, hInv2, hiff2, hriff2⟩
    have heq : p'' = p' ∧ r'' = r := by
      have hh := hrun2.symm.trans hrun
      simp only [Option.some.injEq, Prod.mk.injEq] at hh
      exact hh
    obtain ⟨rfl, rfl⟩ := heq
    refine ⟨hInv2, hlen2.trans hlen, fun u v hu hv => (hR u v hu hv).trans ?_⟩
    exact (exists_congr (fun t => and_congr (hiff2 u t) (hiff2 v t))).symm
  | @union d R d' b x y hx hy hreach hrun ih =>
    rcases ih with ⟨hInv, hlen, hR⟩
    rcases unionAux_spec d x y (n + 1) hInv (by rw [hlen]; exact hx)
        (by rw [hlen]; exact hy) (by rw [hlen]) with
      ⟨d'', rx, ry, hrx, hry, hlen', hI', hcase⟩
    rcases hcase with ⟨hrxry, hrun2, hrank, hiffm, hrs⟩ |
        ⟨hne, hrun2, w, l, hwl, hiffm, hrs⟩
    · have heq : d'' = d' := by
        have hh := hrun2.symm.trans hrun
        simp only [Option.some.injEq, Prod.mk.injEq] at hh
        exact hh.1
      subst heq
      refine ⟨hI', hlen'.trans hlen, fun u v hu hv => ?_⟩
      have hrEqd : rootEq d''.parent u v ↔ rootEq d.parent u v :=
        exists_congr (fun t => and_congr (hiffm u t) (hiffm v t))
      rw [hrEqd]
      have hxyEq : rootEq d.parent x y := ⟨rx, hrx, by rw [hrxry]; exact hry⟩
      unfold joinRel
      rw [hR u v hu hv, hR u x hu hx, hR y v hy hv, hR u y hu hy, hR x v hx hv]
      constructor
      · rintro (hc | ⟨h1, h2⟩ | ⟨h1, h2⟩)
        · exact hc
        · exact rootEq_trans _ u x v h1 (rootEq_trans _ x y v hxyEq h2)
        · exact rootEq_trans _ u y v h1
            (rootEq_trans _ y x v (rootEq_symm _ x y hxyEq) h2)
      · exact Or.inl
    · have heq : d'' = d' := by
        have hh := hrun2.symm.trans hrun
        simp only [Option.some.injEq, Prod.mk.injEq] at hh
        exact hh.1
      subst heq
      refine ⟨hI', hlen'.trans hlen, fun u v hu hv => ?_⟩
      rcases hInv.2 u with ⟨ru, hru⟩
      rcases hInv.2 v with ⟨rv, hrv⟩
      have hu' : ∀ s, RootedAt d''.parent u s ↔ s = (if ru = l then w else ru) := by
        intro s
        rw [hiffm u s]
        constructor
        · rintro ⟨t, ht, rfl⟩
          rw [rootedAt_unique _ u t ru ht hru]
        · rintro rfl
          exact ⟨ru, hru, rfl⟩
      have hv' : ∀ s, RootedAt d''.parent v s ↔ s = (if rv = l then w else rv) := by
        intro s
        rw [hiffm v s]
        constructor
        · rintro ⟨t, ht, rfl⟩
          rw [rootedAt_unique _ v t rv ht hrv]
        · rintro rfl
          exact ⟨rv, hrv, rfl⟩
      have hright : rootEq d''.parent u v ↔
          ((if ru = l then w else ru) = (if rv = l then w else rv)) := by
        unfold rootEq
        constructor
        · rintro ⟨r, h1, h2⟩
          rw [← (hu' r).mp h1, ← (hv' r).mp h2]
        · intro hh
          exact ⟨_, (hu' _).mpr rfl, (hv' _).mpr hh⟩
      rw [hright]
      unfold joinRel
      rw [hR u v hu hv, hR u x hu hx, hR y v hy hv, hR u y hu hy, hR x v hx hv]
      rw [rootEq_of_roots d.parent u v ru rv hru hrv,
        rootEq_of_roots d.parent u x ru rx hru hrx,
        rootEq_of_roots d.parent y v ry rv hry hrv,
        rootEq_of_roots d.parent u y ru ry hru hry,
        rootEq_of_roots d.parent x v rx rv hrx hrv]
      exact (merge_root_cases ru rv rx ry w l hne hwl).symm

/-- C3: on every state reachable from `construct(n)` by in-range
`find`/`union` calls: `find(i)` terminates for every `i < n` (fuel
`n + 1` always suffices, because the parent relation is acyclic and
finite); the parent relation is acyclic (a vertex on a non-trivial
parent cycle is necessarily a self-parented representative); every
vertex has exactly one representative; and two vertices are in the same
component — the equivalence generated by the merge history — iff their
representatives are equal. -/
theorem reachable_dsu_invariants (n : Nat) (d : DisjointSet) (R : Nat → Nat → Prop)
    (h : ReachableWith n d R) :
    (∀ i, i < n → ∃ p' r, findAux (n + 1) d.parent i = some (p', r)) ∧
    (∀ i k, 1 ≤ k → (pstep d.parent)^[k] i = i → isRoot d.parent i) ∧
    (∀ i, ∃! r, RootedAt d.parent i r) ∧
    (∀ u v, u < n → v < n → (R u v ↔ rootEq d.parent u v)) := by
  rcases reachableWith_inv n d R h with ⟨hInv, hlen, hR⟩
  refine ⟨?_, ?_, ?_, hR⟩
  · intro i _
    rcases findAux_spec d.parent hInv i (n + 1) (by rw [hlen]) with
      ⟨p', r, hrun, -⟩
    exact ⟨p', r, hrun⟩
  · intro i k hk hcyc
    rcases hInv.2 i with ⟨r, m, hm, hr⟩
    have hiter : ∀ q, (pstep d.parent)^[q * k] i = i := by
      intro q
      induction q with
      | zero => rw [Nat.zero_mul]; rfl
      | succ q ih =>
        rw [Nat.succ_mul, Function.iterate_add_apply, hcyc, ih]
    have h1 : (pstep d.parent)^[m * k] i = i := hiter m
    have h2 : (pstep d.parent)^[m * k] i = r := by
      have hmk : m ≤ m * k := Nat.le_mul_of_pos_right m (by omega)
      have hsplit : (pstep d.parent)^[(m * k - m) + m] i =
          (pstep d.parent)^[m * k - m] ((pstep d.parent)^[m] i) :=
        Function.iterate_add_apply (pstep d.parent) (m * k - m) m i
      rw [Nat.sub_add_cancel hmk] at hsplit
      rw [hsplit, hm]
      exact pstep_iterate_fixed _ r hr (m * k - m)
    have hri : r = i := by rw [← h1, h2]
    rw [← hri]
    exact hr
  · intro i
    rcases hInv.2 i with ⟨r, hr⟩
    exact ⟨r, hr, fun s hs => rootedAt_unique _ i s r hs hr⟩

/-- Witness for C3 at `n = 2` on the freshly constructed state. -/
theorem reachable_dsu_invariants_witness :
    (∀ i, i < 2 → ∃ p' r, findAux (2 + 1) (DisjointSet.make 2).parent i = some (p', r)) ∧
    (∀ i k, 1 ≤ k → (pstep (DisjointSet.make 2).parent)^[k] i = i →
      isRoot (DisjointSet.make 2).parent i) ∧
    (∀ i, ∃! r, RootedAt (DisjointSet.make 2).parent i r) ∧
    (∀ u v, u < 2 → v < 2 → (u = v ↔ rootEq (DisjointSet.make 2).parent u v)) :=
  reachable_dsu_invariants 2 (DisjointSet.make 2) (fun a b => a = b)
    ReachableWith.init

/-! ## Connectivity basics -/

theorem joins_symm {e : Edge} {a b : Nat} (h : joins e a b) : joins e b a := by
  rcases h with ⟨h1, h2⟩ | ⟨h1, h2⟩
  · exact Or.inr ⟨h1, h2⟩
  · exact Or.inl ⟨h1, h2⟩

theorem adjE_symm (E : Multiset Edge) : Symmetric (adjE E) := by
  rintro a b ⟨e, he, hj⟩
  exact ⟨e, he, joins_symm hj⟩

theorem connects_refl (E : Multiset Edge) (a : Nat) : connects E a a :=
  Relation.ReflTransGen.refl

theorem connects_symm {E : Multiset Edge} {a b : Nat} (h : connects E a b) :
    connects E b a :=
  Relation.ReflTransGen.symmetric (adjE_symm E) h

theorem connects_trans {E : Multiset Edge} {a b c : Nat} (h1 : connects E a b)
    (h2 : connects E b c) : connects E a c :=
  Relation.ReflTransGen.trans h1 h2

theorem connects_mono {E E' : Multiset Edge} (hle : E ≤ E') {a b : Nat}
    (h : connects E a b) : connects E' a b := by
  refine Relation.ReflTransGen.mono ?_ h
  rintro u v ⟨e, he, hj⟩
  exact ⟨e, Multiset.subset_of_le hle he, hj⟩

theorem connects_single {E : Multiset Edge} {e : Edge} {a b : Nat} (he : e ∈ E)
    (hj : joins e a b) : connects E a b :=
  Relation.ReflTransGen.single ⟨e, he, hj⟩

theorem connects_comm {E : Multiset Edge} {a b : Nat} :
    connects E a b ↔ connects E b a :=
  ⟨connects_symm, connects_symm⟩

theorem connects_joins_iff (E : Multiset Edge) (h : Edge) (u v : Nat)
    (hj : joins h u v) :
    connects E u v ↔ connects E h.source h.destination := by
  rcases hj with ⟨h1, h2⟩ | ⟨h1, h2⟩
  · rw [← h1, ← h2]
  · rw [← h1, ← h2]
    exact connects_comm

theorem connects_zero (x y : Nat) : connects 0 x y ↔ x = y := by
  constructor
  · intro h
    induction h with
    | refl => rfl
    | tail hwalk hstep ih =>
      rcases hstep with ⟨e, he, -⟩
      exact absurd he (by simp)
  · rintro rfl
    exact connects_refl 0 x

/-- Decomposition of connectivity through one extra edge: either the two
vertices are connected without it, or the connection routes through the
extra edge in one of its two orientations. -/
theorem connects_cons_iff (e : Edge) (E : Multiset Edge) (x y : Nat) :
    connects (e ::ₘ E) x y ↔
      connects E x y ∨
      (connects E x e.source ∧ connects E e.destination y) ∨
      (connects E x e.destination ∧ connects E e.source y) := by
  constructor
  · intro h
    induction h with
    | refl => exact Or.inl (connects_refl E x)
    | tail hwalk hstep ih =>
      rename_i u v
      rcases hstep with ⟨f, hf, hj⟩
      rcases Multiset.mem_cons.mp hf with rfl | hfE
      · rcases hj with ⟨h1, h2⟩ | ⟨h1, h2⟩
        · subst h1
          subst h2
          rcases ih with hc | ⟨hc1, hc2⟩ | ⟨hc1, hc2⟩
          · exact Or.inr (Or.inl ⟨hc, connects_refl E f.destination⟩)
          · exact Or.inr (Or.inl ⟨hc1, connects_refl E f.destination⟩)
          · exact Or.inl hc1
        · subst h1
          subst h2
          rcases ih with hc | ⟨hc1, hc2⟩ | ⟨hc1, hc2⟩
          · exact Or.inr (Or.inr ⟨hc, connects_refl E f.source⟩)
          · exact Or.inl hc1
          · exact Or.inr (Or.inr ⟨hc1, connects_refl E f.source⟩)
      · have hstep' : connects E u v := connects_single hfE hj
        rcases ih with hc | ⟨hc1, hc2⟩ | ⟨hc1, hc2⟩
        · exact Or.inl (connects_trans hc hstep')
        · exact Or.inr (Or.inl ⟨hc1, connects_trans hc2 hstep'⟩)
        · exact Or.inr (Or.inr ⟨hc1, connects_trans hc2 hstep'⟩)
  · intro h
    have hmono : ∀ a b, connects E a b → connects (e ::ₘ E) a b :=
      fun a b => connects_mono (Multiset.le_cons_self E e)
    have hedge : connects (e ::ₘ E) e.source e.destination :=
      connects_single (Multiset.mem_cons_self e E) (Or.inl ⟨rfl, rfl⟩)
    rcases h with hc | ⟨hc1, hc2⟩ | ⟨hc1, hc2⟩
    · exact hmono x y hc
    · exact connects_trans (hmono _ _ hc1)
        (connects_trans hedge (hmono _ _ hc2))
    · exact connects_trans (hmono _ _ hc1)
        (connects_trans (connects_symm hedge) (hmono _ _ hc2))

/-! ## Walks, loop erasure, and the crossing-edge lemma -/

theorem walkIn_connects {E : Multiset Edge} {x y : Nat} {l : List Nat}
    (h : WalkIn E x y l) : connects E x y := by
  induction h with
  | nil w => exact connects_refl E w
  | cons x e he hj hw ih => exact connects_trans (connects_single he hj) ih

theorem connects_walkIn {E : Multiset Edge} {x y : Nat} (h : connects E x y) :
    ∃ l, WalkIn E x y l := by
  induction h using Relation.ReflTransGen.head_induction_on with
  | refl => exact ⟨[y], WalkIn.nil y⟩
  | head hstep hrest ih =>
    rcases hstep with ⟨e, he, hj⟩
    rcases ih with ⟨l, hw⟩
    exact ⟨_, WalkIn.cons _ e he hj hw⟩

theorem walkIn_head_eq {E : Multiset Edge} {x y : Nat} {l : List Nat}
    (h : WalkIn E x y l) : ∃ l', l = x :: l' := by
  cases h with
  | nil => exact ⟨[], rfl⟩
  | cons x e he hj hw => exact ⟨_, rfl⟩

theorem walkIn_suffix {E : Multiset Edge} {y z : Nat} {l : List Nat}
    (h : WalkIn E y z l) : ∀ (l1 : List Nat) (x : Nat) (l2 : List Nat),
      l = l1 ++ x :: l2 → WalkIn E x z (x :: l2) := by
  induction h with
  | nil w =>
    intro l1 x l2 heq
    cases l1 with
    | nil =>
      simp at heq
      rcases heq with ⟨rfl, rfl⟩
      exact WalkIn.nil w
    | cons a l1' =>
      simp at heq
  | cons x0 e he hj hw ih =>
    intro l1 x l2 heq
    cases l1 with
    | nil =>
      simp at heq
      rcases heq with ⟨rfl, rfl⟩
      exact WalkIn.cons x0 e he hj hw
    | cons a l1' =>
      simp at heq
      rcases heq with ⟨rfl, heq'⟩
      exact ih l1' x l2 heq'

theorem walkIn_nodup {E : Multiset Edge} :
    ∀ (m x y : Nat) (l : List Nat), l.length ≤ m → WalkIn E x y l →
      ∃ l', WalkIn E x y l' ∧ l'.Nodup := by
  intro m
  induction m with
  | zero =>
    intro x y l hlen h
    rcases walkIn_head_eq h with ⟨l', rfl⟩
    simp at hlen
  | succ m ih =>
    intro x y l hlen h
    cases h with
    | nil => exact ⟨[x], WalkIn.nil x, by simp⟩
    | cons x' e he hj hw =>
      rename_i y1 lw
      have hlw : lw.length ≤ m := by
        simp at hlen
        omega
      rcases ih y1 y lw hlw hw with ⟨l', hw', hnd⟩
      by_cases hx : x ∈ l'
      · rcases List.append_of_mem hx with ⟨s, t, rfl⟩
        have hsuf := walkIn_suffix hw' s x t rfl
        refine ⟨x :: t, hsuf, ?_⟩
        exact hnd.sublist (List.sublist_append_right s (x :: t))
      · exact ⟨x :: l', WalkIn.cons x e he hj hw', by simp [hx, hnd]⟩

theorem walkIn_erase_of_not_mem {E : Multiset Edge} (e0 : Edge) {x y : Nat}
    {l : List Nat} (h : WalkIn E x y l)
    (hmem0 : e0.source ∉ l ∨ e0.destination ∉ l) : WalkIn (E.erase e0) x y l := by
  induction h with
  | nil w => exact WalkIn.nil w
  | cons x e he hj hw ih =>
    rename_i y1 z lw
    have hxl : x ∈ x :: lw := by simp
    have hy1 : y1 ∈ x :: lw := by
      rcases walkIn_head_eq hw with ⟨l', rfl⟩
      simp
    have hne : e ≠ e0 := by
      rintro rfl
      rcases hj with ⟨h1, h2⟩ | ⟨h1, h2⟩
      · rcases hmem0 with hm | hm
        · exact hm (by rw [h1]; exact hxl)
        · exact hm (by rw [h2]; exact hy1)
      · rcases hmem0 with hm | hm
        · exact hm (by rw [h1]; exact hy1)
        · exact hm (by rw [h2]; exact hxl)
    refine WalkIn.cons x e ((Multiset.mem_erase_of_ne hne).mpr he) hj (ih ?_)
    rcases hmem0 with hm | hm
    · exact Or.inl (fun hc => hm (List.mem_cons_of_mem x hc))
    · exact Or.inr (fun hc => hm (List.mem_cons_of_mem x hc))

/-- Crossing lemma: a walk from a `P`-vertex to a non-`P`-vertex with
distinct vertices passes through a crossing edge `h` (one endpoint in
`P`, one out), and the walk connects the ends to the crossing even after
removing `h`. -/
theorem walkIn_crossing {E : Multiset Edge} (P : Nat → Prop) {x y : Nat}
    {l : List Nat} (hwalk : WalkIn E x y l) :
    l.Nodup → P x → ¬ P y →
      ∃ h ∈ E, ∃ u v, joins h u v ∧ P u ∧ ¬ P v ∧
        connects (E.erase h) x u ∧ connects (E.erase h) v y := by
  induction hwalk with
  | nil w =>
    intro _ hP hnP
    exact absurd hP hnP
  | cons x e he hj hw ih =>
    rename_i y1 z lw
    intro hnd hPx hnPz
    by_cases hP1 : P y1
    · rcases ih (List.nodup_cons.mp hnd).2 hP1 hnPz with
        ⟨h, hh, u, v, hj2, hPu, hnPv, hcu, hcv⟩
      refine ⟨h, hh, u, v, hj2, hPu, hnPv, ?_, hcv⟩
      have hne : e ≠ h := by
        rintro rfl
        rcases hj with ⟨h1, h2⟩ | ⟨h1, h2⟩ <;> rcases hj2 with ⟨h3, h4⟩ | ⟨h3, h4⟩
        · exact hnPv (by rw [h4.symm.trans h2]; exact hP1)
        · exact hnPv (by rw [h3.symm.trans h1]; exact hPx)
        · exact hnPv (by rw [h4.symm.trans h2]; exact hPx)
        · exact hnPv (by rw [h3.symm.trans h1]; exact hP1)
      exact connects_trans
        (connects_single ((Multiset.mem_erase_of_ne hne).mpr he) hj) hcu
    · refine ⟨e, he, x, y1, hj, hPx, hP1, connects_refl _ x, ?_⟩
      have hxlw : x ∉ lw := (List.nodup_cons.mp hnd).1
      have hmem : e.source ∉ lw ∨ e.destination ∉ lw := by
        rcases hj with ⟨h1, h2⟩ | ⟨h1, h2⟩
        · exact Or.inl (by rw [h1]; exact hxlw)
        · exact Or.inr (by rw [h2]; exact hxlw)
      exact walkIn_connects (walkIn_erase_of_not_mem e hw hmem)

/-- The crossing lemma at the level of `connects`. -/
theorem connects_crossing {E : Multiset Edge} (P : Nat → Prop) {x y : Nat}
    (hc : connects E x y) (hPx : P x) (hnPy : ¬ P y) :
    ∃ h ∈ E, ∃ u v, joins h u v ∧ P u ∧ ¬ P v ∧
      connects (E.erase h) x u ∧ connects (E.erase h) v y := by
  rcases connects_walkIn hc with ⟨l, hw⟩
  rcases walkIn_nodup l.length x y l (le_refl _) hw with ⟨l', hw', hnd⟩
  exact walkIn_crossing P hw' hnd hPx hnPy

/-! ## Forests and spanning forests -/

theorem isForest_zero : IsForest 0 := by
  intro e he
  simp at he

theorem isForest_of_le {F F' : Multiset Edge} (hle : F' ≤ F) (hF : IsForest F) :
    IsForest F' := by
  intro e he hc
  exact hF e (Multiset.subset_of_le hle he)
    (connects_mono (Multiset.erase_le_erase e hle) hc)

theorem isForest_cons {F : Multiset Edge} (e : Edge) (hF : IsForest F)
    (hnc : ¬ connects F e.source e.destination) : IsForest (e ::ₘ F) := by
  intro g hg hc
  rcases Multiset.mem_cons.mp hg with rfl | hgF
  · rw [Multiset.erase_cons_head] at hc
    exact hnc hc
  · have hge : g ≠ e := by
      rintro rfl
      exact hnc (connects_single hgF (Or.inl ⟨rfl, rfl⟩))
    rw [Multiset.erase_cons_tail F (Ne.symm hge)] at hc
    rcases (connects_cons_iff e (F.erase g) _ _).mp hc with hcc | ⟨h1, h2⟩ | ⟨h1, h2⟩
    · exact hF g hgF hcc
    · refine hnc (connects_trans (connects_trans ?_
        (connects_single hgF (Or.inl ⟨rfl, rfl⟩))) ?_)
      · exact connects_mono (Multiset.erase_le g F) (connects_symm h1)
      · exact connects_mono (Multiset.erase_le g F) (connects_symm h2)
    · refine hnc (connects_trans (connects_trans ?_
        (connects_symm (connects_single hgF (Or.inl ⟨rfl, rfl⟩)))) ?_)
      · exact connects_mono (Multiset.erase_le g F) h2
      · exact connects_mono (Multiset.erase_le g F) h1

theorem spanningForest_exists (G : Multiset Edge) : ∃ F, SpanningForest G F := by
  by_contra hno
  push_neg at hno
  have hext : ∀ F, F ≤ G → IsForest F →
      ∃ e ∈ G, ¬ connects F e.source e.destination := by
    intro F hle hF
    have h := hno F
    unfold SpanningForest at h
    push_neg at h
    exact h hle hF
  have hbuild : ∀ k, ∃ F, F ≤ G ∧ IsForest F ∧ Multiset.card F = k := by
    intro k
    induction k with
    | zero => exact ⟨0, Multiset.zero_le G, isForest_zero, rfl⟩
    | succ k ih =>
      rcases ih with ⟨F, hle, hF, hcard⟩
      rcases hext F hle hF with ⟨e, heG, hnc⟩
      have heF : e ∉ F := fun hc => hnc (connects_single hc (Or.inl ⟨rfl, rfl⟩))
      refine ⟨e ::ₘ F, ?_, isForest_cons e hF hnc, by simp [hcard]⟩
      rw [Multiset.le_iff_count]
      intro a
      by_cases ha : a = e
      · subst ha
        rw [Multiset.count_cons_self]
        have h0 : Multiset.count a F = 0 := by
          simpa [Multiset.count_eq_zero] using heF
        rw [h0]
        simpa using Multiset.one_le_count_iff_mem.mpr heG
      · rw [Multiset.count_cons_of_ne ha]
        exact Multiset.le_iff_count.mp hle a
  rcases hbuild (Multiset.card G + 1) with ⟨F, hle, -, hcard⟩
  have hcard2 := Multiset.card_le_card hle
  omega

theorem spanningForest_min_exists (G : Multiset Edge) :
    ∃ F, SpanningForest G F ∧
      ∀ F', SpanningForest G F' → weightSum F ≤ weightSum F' := by
  classical
  rcases spanningForest_exists G with ⟨F0, hF0⟩
  have hmem : ∀ F, SpanningForest G F →
      weightSum F ∈ G.toList.sublists.map
        (fun l : List Edge => weightSum (↑l : Multiset Edge)) := by
    intro F hF
    have hle2 : List.Subperm F.toList G.toList := by
      rw [← Multiset.coe_le, Multiset.coe_toList, Multiset.coe_toList]
      exact hF.1
    rcases hle2 with ⟨l, hperm, hsub⟩
    have hcoe : (↑l : Multiset Edge) = F := by
      rw [Multiset.coe_eq_coe.mpr hperm, Multiset.coe_toList]
    simp only [List.mem_map]
    exact ⟨l, List.mem_sublists.mpr hsub, by rw [hcoe]⟩
  have hTne : ((G.toList.sublists.map
      (fun l : List Edge => weightSum (↑l : Multiset Edge))).toFinset.filter
      (fun c => ∃ F, SpanningForest G F ∧ weightSum F = c)).Nonempty :=
    ⟨weightSum F0,
      Finset.mem_filter.mpr ⟨List.mem_toFinset.mpr (hmem F0 hF0), F0, hF0, rfl⟩⟩
  rcases Finset.mem_filter.mp (Finset.min'_mem _ hTne) with ⟨-, F, hF, hFc⟩
  refine ⟨F, hF, fun F' hF' => ?_⟩
  rw [hFc]
  exact Finset.min'_le _ _
    (Finset.mem_filter.mpr ⟨List.mem_toFinset.mpr (hmem F' hF'), F', hF', rfl⟩)

theorem spanningForest_eq_of_le (G F Tm : Multiset Edge) (hT : SpanningForest G Tm)
    (hF : IsForest F) (hle : Tm ≤ F) (hFG : F ≤ G) : F = Tm := by
  refine le_antisymm ?_ hle
  rw [Multiset.le_iff_count]
  intro f
  by_contra hcount
  push_neg at hcount
  have hfF : f ∈ F := by
    rw [← Multiset.one_le_count_iff_mem]
    omega
  have hTle : Tm ≤ F.erase f := by
    rw [Multiset.le_iff_count]
    intro g
    by_cases hg : g = f
    · subst hg
      rw [Multiset.count_erase_self]
      omega
    · rw [Multiset.count_erase_of_ne hg]
      exact Multiset.le_iff_count.mp hle g
  have hconn : connects Tm f.source f.destination :=
    hT.2.2 f (Multiset.subset_of_le hFG hfF)
  exact hF f hfF (connects_mono hTle hconn)

theorem weightSum_cons (a : Edge) (s : Multiset Edge) :
    weightSum (a ::ₘ s) = a.weight + weightSum s := by
  simp [weightSum]

theorem coe_append_singleton (T : List Edge) (e : Edge) :
    (↑(T ++ [e]) : Multiset Edge) = e ::ₘ (↑T : Multiset Edge) := by
  rw [Multiset.cons_coe, Multiset.coe_eq_coe]
  exact List.perm_append_singleton e T

theorem minimal_of_spanning (G Tm : Multiset Edge) (hspan : SpanningForest G Tm)
    (hmin : ∃ F, SpanningForest G F ∧ Tm ≤ F ∧
      ∀ F', SpanningForest G F' → weightSum F ≤ weightSum F') :
    ∀ F', SpanningForest G F' → weightSum Tm ≤ weightSum F' := by
  rcases hmin with ⟨F, hF, hTF, hminF⟩
  have hFT : F = Tm := spanningForest_eq_of_le G F Tm hspan hF.2.1 hTF hF.1
  intro F' hF'
  rw [← hFT]
  exact hminF F' hF'

/-- The exchange step: if the greedy may add `e` (endpoints not
`T`-connected), `F` is a minimum spanning forest containing `T`, and
every `F`-edge not already settled by `T` weighs at least `e`, then some
minimum spanning forest contains `T` plus `e`. -/
theorem exchange_step (G F Tm : Multiset Edge) (e : Edge)
    (hSF : SpanningForest G F)
    (hminF : ∀ F', SpanningForest G F' → weightSum F ≤ weightSum F')
    (hTF : Tm ≤ F) (heG : e ∈ G)
    (hnc : ¬ connects Tm e.source e.destination)
    (hTlow : ∀ f, f ∈ F → f ∉ Tm → ¬ connects Tm f.source f.destination →
      e.weight ≤ f.weight) :
    ∃ F2, SpanningForest G F2 ∧ (e ::ₘ Tm) ≤ F2 ∧
      ∀ F', SpanningForest G F' → weightSum F2 ≤ weightSum F' := by
  have heT : e ∉ Tm := fun hc => hnc (connects_single hc (Or.inl ⟨rfl, rfl⟩))
  by_cases heF : e ∈ F
  · refine ⟨F, hSF, ?_, hminF⟩
    rw [Multiset.le_iff_count]
    intro a
    by_cases ha : a = e
    · subst ha
      rw [Multiset.count_cons_self]
      have h0 : Multiset.count a Tm = 0 := by
        simpa [Multiset.count_eq_zero] using heT
      rw [h0]
      simpa using Multiset.one_le_count_iff_mem.mpr heF
    · rw [Multiset.count_cons_of_ne ha]
      exact Multiset.le_iff_count.mp hTF a
  · have hconnF : connects F e.source e.destination := hSF.2.2 e heG
    rcases connects_crossing (fun v => connects Tm e.source v) hconnF
        (connects_refl Tm e.source) hnc with
      ⟨h, hhF, u, v, hj, hPu, hnPv, hcu, hcv⟩
    have hncT_uv : ¬ connects Tm u v := fun hc => hnPv (connects_trans hPu hc)
    have hhT : h ∉ Tm := fun hc => hncT_uv (connects_single hc hj)
    have hncT_h : ¬ connects Tm h.source h.destination :=
      fun hc => hncT_uv ((connects_joins_iff Tm h u v hj).mpr hc)
    have hwe : e.weight ≤ h.weight := hTlow h hhF hhT hncT_h
    have hTFe : Tm ≤ F.erase h := by
      rw [Multiset.le_iff_count]
      intro g
      by_cases hg : g = h
      · subst hg
        have h0 : Multiset.count g Tm = 0 := by
          simpa [Multiset.count_eq_zero] using hhT
        rw [h0]
        omega
      · rw [Multiset.count_erase_of_ne hg]
        exact Multiset.le_iff_count.mp hTF g
    have hforest'' : IsForest (F.erase h) := isForest_of_le (Multiset.erase_le h F) hSF.2.1
    have hncF'' : ¬ connects (F.erase h) e.source e.destination := by
      intro hc
      have huv : connects (F.erase h) u v :=
        connects_trans (connects_symm hcu) (connects_trans hc (connects_symm hcv))
      exact hSF.2.1 h hhF ((connects_joins_iff (F.erase h) h u v hj).mp huv)
    have hF2forest : IsForest (e ::ₘ F.erase h) := isForest_cons e hforest'' hncF''
    have hF2G : (e ::ₘ F.erase h) ≤ G := by
      rw [Multiset.le_iff_count]
      intro a
      by_cases ha : a = e
      · subst ha
        rw [Multiset.count_cons_self]
        have h0 : Multiset.count a F = 0 := by
          simpa [Multiset.count_eq_zero] using heF
        have h1 : Multiset.count a (F.erase h) = 0 := by
          have := Multiset.count_le_of_le a (Multiset.erase_le h F)
          omega
        rw [h1]
        simpa using Multiset.one_le_count_iff_mem.mpr heG
      · rw [Multiset.count_cons_of_ne ha]
        calc Multiset.count a (F.erase h) ≤ Multiset.count a F :=
              Multiset.count_le_of_le a (Multiset.erase_le h F)
          _ ≤ Multiset.count a G := Multiset.le_iff_count.mp hSF.1 a
    have hedge_e : connects (e ::ₘ F.erase h) e.source e.destination :=
      connects_single (Multiset.mem_cons_self e _) (Or.inl ⟨rfl, rfl⟩)
    have hmono'' : ∀ a b, connects (F.erase h) a b → connects (e ::ₘ F.erase h) a b :=
      fun a b => connects_mono (Multiset.le_cons_self _ e)
    have hpatch : connects (e ::ₘ F.erase h) h.source h.destination := by
      have huv : connects (e ::ₘ F.erase h) u v :=
        connects_trans (hmono'' _ _ (connects_symm hcu))
          (connects_trans hedge_e (hmono'' _ _ (connects_symm hcv)))
      exact (connects_joins_iff (e ::ₘ F.erase h) h u v hj).mp huv
    have hF2span : ∀ g ∈ G, connects (e ::ₘ F.erase h) g.source g.destination := by
      intro g hgG
      have hgF : connects F g.source g.destination := hSF.2.2 g hgG
      rw [← Multiset.cons_erase hhF] at hgF
      rcases (connects_cons_iff h (F.erase h) _ _).mp hgF with hcc | ⟨h1, h2⟩ | ⟨h1, h2⟩
      · exact hmono'' _ _ hcc
      · exact connects_trans (hmono'' _ _ h1)
          (connects_trans hpatch (hmono'' _ _ h2))
      · exact connects_trans (hmono'' _ _ h1)
          (connects_trans (connects_symm hpatch) (hmono'' _ _ h2))
    refine ⟨e ::ₘ F.erase h, ⟨hF2G, hF2forest, hF2span⟩, Multiset.cons_le_cons e hTFe, ?_⟩
    intro F' hF'
    have hFsplit : weightSum F = h.weight + weightSum (F.erase h) := by
      conv_lhs => rw [← Multiset.cons_erase hhF]
      rw [weightSum_cons]
    have hsum : weightSum (e ::ₘ F.erase h) ≤ weightSum F := by
      rw [weightSum_cons, hFsplit]
      omega
    exact le_trans hsum (hminF F' hF')

theorem rootEq_after_merge (p p' : List Nat) (w l : Nat)
    (hiffm : ∀ j s, RootedAt p' j s ↔
      ∃ t, RootedAt p j t ∧ s = (if t = l then w else t))
    (u v ru rv : Nat) (hru : RootedAt p u ru) (hrv : RootedAt p v rv) :
    rootEq p' u v ↔ ((if ru = l then w else ru) = (if rv = l then w else rv)) := by
  have hu' : ∀ s, RootedAt p' u s ↔ s = (if ru = l then w else ru) := by
    intro s
    rw [hiffm u s]
    constructor
    · rintro ⟨t, ht, rfl⟩
      rw [rootedAt_unique _ u t ru ht hru]
    · rintro rfl
      exact ⟨ru, hru, rfl⟩
  have hv' : ∀ s, RootedAt p' v s ↔ s = (if rv = l then w else rv) := by
    intro s
    rw [hiffm v s]
    constructor
    · rintro ⟨t, ht, rfl⟩
      rw [rootedAt_unique _ v t rv ht hrv]
    · rintro rfl
      exact ⟨rv, hrv, rfl⟩
  unfold rootEq
  constructor
  · rintro ⟨r, h1, h2⟩
    rw [← (hu' r).mp h1, ← (hv' r).mp h2]
  · intro hh
    exact ⟨_, (hu' _).mpr rfl, (hv' _).mpr hh⟩

/-- The loop invariant for minimality: if the DSU partition matches the
connectivity of the selected edges `T`, `T` is a forest below some
minimum spanning forest, each already-processed edge is selected or has
`T`-connected endpoints, and the representative count tracks `V` minus
the selections, then the loop completes with a minimum spanning forest. -/
theorem kruskalLoop_minimal (G : Multiset Edge) (V fuel : Nat) (hfuel : V + 1 ≤ fuel)
    (hGvalid : ∀ g ∈ G, g.source < V ∧ g.destination < V) :
    ∀ (rest T : List Edge) (c : Int) (d : DisjointSet) (prefixM : Multiset Edge),
      G = prefixM + ↑rest →
      (∀ g ∈ prefixM, g ∈ (↑T : Multiset Edge) ∨
        connects (↑T) g.source g.destination) →
      (↑T : Multiset Edge) ≤ prefixM →
      rest.Pairwise weightLE →
      d.parent.length = V →
      DSUInv d.parent →
      (∀ u v, u < V → v < V → (rootEq d.parent u v ↔ connects (↑T) u v)) →
      IsForest (↑T : Multiset Edge) →
      (∃ F, SpanningForest G F ∧ (↑T : Multiset Edge) ≤ F ∧
        ∀ F', SpanningForest G F' → weightSum F ≤ weightSum F') →
      (rootSet d.parent).card + T.length = V →
      ∃ mst cost d', kruskalLoop fuel V rest T c d = some (mst, cost, d') ∧
        SpanningForest G (↑mst) ∧
        ∀ F', SpanningForest G F' → weightSum (↑mst) ≤ weightSum F' := by
  intro rest
  induction rest with
  | nil =>
    intro T c d prefixM hsplit hprefix hTpre hsorted hlen hInv hpart hforest hmin hcard
    have hG : G = prefixM := by simpa using hsplit
    have hspan : SpanningForest G ↑T := by
      refine ⟨?_, hforest, ?_⟩
      · rw [hG]
        exact hTpre
      · intro g hg
        rw [hG] at hg
        rcases hprefix g hg with hgT | hgc
        · exact connects_single hgT (Or.inl ⟨rfl, rfl⟩)
        · exact hgc
    exact ⟨T, c, d, rfl, hspan, minimal_of_spanning G ↑T hspan hmin⟩
  | cons e rest' ih =>
    intro T c d prefixM hsplit hprefix hTpre hsorted hlen hInv hpart hforest hmin hcard
    have heG : e ∈ G := by
      rw [hsplit]
      exact Multiset.mem_add.mpr (Or.inr (Multiset.mem_coe.mpr (List.mem_cons_self e rest')))
    have hsV : e.source < V := (hGvalid e heG).1
    have hdV : e.destination < V := (hGvalid e heG).2
    have hmemroot : ∀ z r, z < V → RootedAt d.parent z r → r ∈ rootSet d.parent := by
      intro z r hz hr
      refine Finset.mem_filter.mpr ⟨Finset.mem_range.mpr ?_, ?_⟩
      · exact rootedAt_lt_length d.parent hInv.1 z r (by rw [hlen]; exact hz) hr
      · rcases hr with ⟨-, -, hroot⟩
        exact hroot
    by_cases hbrk : (T.length : Int) = (V : Int) - 1
    · have hcard1 : (rootSet d.parent).card = 1 := by omega
      have hallconn : ∀ u v, u < V → v < V → connects (↑T) u v := by
        rcases Finset.card_eq_one.mp hcard1 with ⟨a, ha⟩
        intro u v hu hv
        rcases hInv.2 u with ⟨ru, hru⟩
        rcases hInv.2 v with ⟨rv, hrv⟩
        have h1 : ru = a := by
          have hm := hmemroot u ru hu hru
          rw [ha, Finset.mem_singleton] at hm
          exact hm
        have h2 : rv = a := by
          have hm := hmemroot v rv hv hrv
          rw [ha, Finset.mem_singleton] at hm
          exact hm
        refine (hpart u v hu hv).mp ⟨ru, hru, ?_⟩
        rw [h1.trans h2.symm]
        exact hrv
      have hspan : SpanningForest G ↑T := by
        refine ⟨?_, hforest, ?_⟩
        · rw [hsplit]
          exact le_trans hTpre (Multiset.le_add_right prefixM _)
        · intro g hg
          exact hallconn _ _ (hGvalid g hg).1 (hGvalid g hg).2
      refine ⟨T, c, d, ?_, hspan, minimal_of_spanning G ↑T hspan hmin⟩
      rw [kruskalLoop, if_pos hbrk]
    · rcases unionAux_spec d e.source e.destination fuel hInv
        (by rw [hlen]; exact hsV) (by rw [hlen]; exact hdV)
        (by rw [hlen]; exact hfuel) with
        ⟨d', rx, ry, hrx, hry, hlen', hI', hcase⟩
      have hrestGsplit : G = (prefixM + {e}) + ↑rest' := by
        rw [hsplit, ← Multiset.cons_coe, add_assoc, Multiset.singleton_add]
      rcases hcase with ⟨hrxry, hrun, hrank, hiffm, hrsets⟩ |
          ⟨hne, hrun, w, l, hwl, hiffm, hrsets⟩
      · have hconn_e : connects (↑T) e.source e.destination :=
          (hpart _ _ hsV hdV).mp ⟨rx, hrx, by rw [hrxry]; exact hry⟩
        have hpre2 : ∀ g ∈ prefixM + {e}, g ∈ (↑T : Multiset Edge) ∨
            connects (↑T) g.source g.destination := by
          intro g hg
          rcases Multiset.mem_add.mp hg with hg1 | hg2
          · exact hprefix g hg1
          · rw [Multiset.mem_singleton.mp hg2]
            exact Or.inr hconn_e
        have hTp2 : (↑T : Multiset Edge) ≤ prefixM + {e} :=
          le_trans hTpre (Multiset.le_add_right prefixM {e})
        have hpart2 : ∀ u v, u < V → v < V →
            (rootEq d'.parent u v ↔ connects (↑T) u v) := by
          intro u v hu hv
          rw [show rootEq d'.parent u v ↔ rootEq d.parent u v from
            exists_congr (fun t => and_congr (hiffm u t) (hiffm v t))]
          exact hpart u v hu hv
        have hcard2 : (rootSet d'.parent).card + T.length = V := by
          rw [hrsets]
          exact hcard
        rcases ih T c d' (prefixM + {e}) hrestGsplit hpre2 hTp2
          (List.pairwise_cons.mp hsorted).2 (hlen'.trans hlen) hI' hpart2
          hforest hmin hcard2 with ⟨mst, cost, d'', hrun2, hsp, hmin2⟩
        refine ⟨mst, cost, d'', ?_, hsp, hmin2⟩
        rw [kruskalLoop, if_neg hbrk, hrun]
        simpa using hrun2
      · have hnc : ¬ connects (↑T) e.source e.destination := by
          intro hc
          exact hne ((rootEq_of_roots d.parent _ _ rx ry hrx hry).mp
            ((hpart _ _ hsV hdV).mpr hc))
        have hTm' : (↑(T ++ [e]) : Multiset Edge) = e ::ₘ (↑T : Multiset Edge) :=
          coe_append_singleton T e
        have hforest' : IsForest (↑(T ++ [e]) : Multiset Edge) := by
          rw [hTm']
          exact isForest_cons e hforest hnc
        rcases hmin with ⟨F, hF, hTF, hminF⟩
        have hTlow : ∀ f, f ∈ F → f ∉ (↑T : Multiset Edge) →
            ¬ connects (↑T) f.source f.destination → e.weight ≤ f.weight := by
          intro f hfF hfT hfc
          have hfG : f ∈ G := Multiset.subset_of_le hF.1 hfF
          rw [hsplit] at hfG
          rcases Multiset.mem_add.mp hfG with hf1 | hf2
          · rcases hprefix f hf1 with hc | hc
            · exact absurd hc hfT
            · exact absurd hc hfc
          · rcases List.mem_cons.mp (Multiset.mem_coe.mp hf2) with rfl | hf3
            · exact le_refl _
            · exact (List.pairwise_cons.mp hsorted).1 f hf3
        rcases exchange_step G F (↑T) e hF hminF hTF heG hnc hTlow with
          ⟨F2, hSF2, hTF2, hmin2⟩
        have hmin' : ∃ F3, SpanningForest G F3 ∧ (↑(T ++ [e]) : Multiset Edge) ≤ F3 ∧
            ∀ F', SpanningForest G F' → weightSum F3 ≤ weightSum F' := by
          refine ⟨F2, hSF2, ?_, hmin2⟩
          rw [hTm']
          exact hTF2
        have hlV : isRoot d.parent l ∧ l < V := by
          rcases hwl with ⟨hw1, hl1⟩ | ⟨hw1, hl1⟩
          · constructor
            · rw [hl1]
              rcases hry with ⟨-, -, hr⟩
              exact hr
            · rw [hl1]
              have hlt := rootedAt_lt_length d.parent hInv.1 e.destination ry
                (by rw [hlen]; exact hdV) hry
              rw [hlen] at hlt
              exact hlt
          · constructor
            · rw [hl1]
              rcases hrx with ⟨-, -, hr⟩
              exact hr
            · rw [hl1]
              have hlt := rootedAt_lt_length d.parent hInv.1 e.source rx
                (by rw [hlen]; exact hsV) hrx
              rw [hlen] at hlt
              exact hlt
        have hlroot : l ∈ rootSet d.parent :=
          Finset.mem_filter.mpr
            ⟨Finset.mem_range.mpr (by rw [hlen]; exact hlV.2), hlV.1⟩
        have hcard' : (rootSet d'.parent).card + (T ++ [e]).length = V := by
          rw [hrsets, Finset.card_erase_of_mem hlroot]
          have hpos : 0 < (rootSet d.parent).card := Finset.card_pos.mpr ⟨l, hlroot⟩
          simp only [List.length_append, List.length_singleton]
          omega
        have hpart' : ∀ u v, u < V → v < V →
            (rootEq d'.parent u v ↔ connects (↑(T ++ [e])) u v) := by
          intro u v hu hv
          rcases hInv.2 u with ⟨ru, hru⟩
          rcases hInv.2 v with ⟨rv, hrv⟩
          rw [rootEq_after_merge d.parent d'.parent w l hiffm u v ru rv hru hrv]
          rw [merge_root_cases ru rv rx ry w l hne hwl]
          rw [hTm']
          rw [connects_cons_iff e (↑T) u v]
          rw [← rootEq_of_roots d.parent u v ru rv hru hrv,
            ← rootEq_of_roots d.parent u e.source ru rx hru hrx,
            ← rootEq_of_roots d.parent e.destination v ry rv hry hrv,
            ← rootEq_of_roots d.parent u e.destination ru ry hru hry,
            ← rootEq_of_roots d.parent e.source v rx rv hrx hrv]
          rw [hpart u v hu hv, hpart u e.source hu hsV,
            hpart e.destination v hdV hv, hpart u e.destination hu hdV,
            hpart e.source v hsV hv]
        have hpre2 : ∀ g ∈ prefixM + {e}, g ∈ (↑(T ++ [e]) : Multiset Edge) ∨
            connects (↑(T ++ [e])) g.source g.destination := by
          intro g hg
          rcases Multiset.mem_add.mp hg with hg1 | hg2
          · rcases hprefix g hg1 with hc | hc
            · refine Or.inl ?_
              rw [hTm']
              exact Multiset.mem_cons_of_mem hc
            · refine Or.inr ?_
              rw [hTm']
              exact connects_mono (Multiset.le_cons_self _ e) hc
          · rw [Multiset.mem_singleton.mp hg2]
            refine Or.inl ?_
            rw [hTm']
            exact Multiset.mem_cons_self e (↑T)
        have hTp2 : (↑(T ++ [e]) : Multiset Edge) ≤ prefixM + {e} := by
          rw [hTm']
          rw [show prefixM + {e} = e ::ₘ prefixM by
            rw [add_comm, Multiset.singleton_add]]
          exact Multiset.cons_le_cons e hTpre
        rcases ih (T ++ [e]) (c + e.weight) d' (prefixM + {e}) hrestGsplit hpre2
          hTp2 (List.pairwise_cons.mp hsorted).2 (hlen'.trans hlen) hI' hpart'
          hforest' hmin' hcard' with ⟨mst, cost, d'', hrun2, hsp, hmin3⟩
        refine ⟨mst, cost, d'', ?_, hsp, hmin3⟩
        rw [kruskalLoop, if_neg hbrk, hrun]
        simpa using hrun2

/-- C1: for every vertex count `V` and every edge list all of whose
endpoints lie in `[0, V)`, `kruskalMST` returns a result whose edge list
is a spanning forest of the multigraph `(V, allEdges)` and whose cost is
its weight, which is minimal among the weights of all spanning forests
of that multigraph — i.e. `result.cost` equals the minimum possible
spanning-forest weight. -/
theorem kruskalMST_minimal (V : Nat) (allEdges : List Edge)
    (hvalid : ∀ g ∈ allEdges, g.source < V ∧ g.destination < V) :
    ∃ r : KResult, kruskalMST V allEdges = some r ∧
      SpanningForest (↑allEdges) (↑r.mst) ∧
      r.cost = weightSum (↑r.mst) ∧
      ∀ F, SpanningForest (↑allEdges) F → r.cost ≤ weightSum F := by
  have hmk : (DisjointSet.make V).parent = List.range V := rfl
  have hGs : (↑(sortByWeight allEdges) : Multiset Edge) = (↑allEdges : Multiset Edge) :=
    Multiset.coe_eq_coe.mpr (sortByWeight_perm allEdges)
  have hGvalid : ∀ g ∈ (↑allEdges : Multiset Edge), g.source < V ∧ g.destination < V := by
    intro g hg
    exact hvalid g (Multiset.mem_coe.mp hg)
  rcases spanningForest_min_exists (↑allEdges : Multiset Edge) with ⟨F0, hF0, hF0min⟩
  have hpart0 : ∀ u v, u < V → v < V →
      (rootEq (DisjointSet.make V).parent u v ↔
        connects (↑([] : List Edge)) u v) := by
    intro u v hu hv
    rw [hmk]
    have hz : ((↑([] : List Edge)) : Multiset Edge) = 0 := rfl
    rw [hz, connects_zero]
    constructor
    · rintro ⟨r, h1, h2⟩
      rw [← make_rootedAt V u r h1, ← make_rootedAt V v r h2]
    · rintro rfl
      exact ⟨u, rootedAt_root _ u (make_isRoot V u), rootedAt_root _ u (make_isRoot V u)⟩
  rcases kruskalLoop_minimal (↑allEdges) V (V + 2) (by omega) hGvalid
      (sortByWeight allEdges) [] 0 (DisjointSet.make V) 0
      (by rw [zero_add]; exact hGs.symm)
      (fun g hg => absurd hg (Multiset.not_mem_zero g))
      (by simp)
      (sortByWeight_pairwise allEdges)
      (by rw [hmk]; simp)
      (by rw [hmk]; exact make_DSUInv V)
      hpart0
      (by simpa using isForest_zero)
      ⟨F0, hF0, by simp, hF0min⟩
      (by rw [hmk, make_rootSet]; simp)
    with ⟨mst, cost, d', hrun, hsp, hminmst⟩
  have hcost1 : cost = (mst.map Edge.weight).sum :=
    kruskalLoop_cost (V + 2) V (sortByWeight allEdges) [] 0 (DisjointSet.make V)
      mst cost d' hrun (by simp)
  have hcost2 : cost = weightSum (↑mst) := by
    rw [hcost1, weightSum]
    simp
  refine ⟨⟨mst, cost, sortByWeight allEdges⟩, ?_, hsp, hcost2, ?_⟩
  · rw [kruskalMST_eq, hrun]
  · intro F hF
    rw [hcost2]
    exact hminmst F hF

theorem kruskalMST_minimal_witness :
    (∀ g ∈ [(⟨0, 1, 10⟩ : Edge), ⟨0, 2, 6⟩, ⟨0, 3, 5⟩, ⟨1, 3, 15⟩, ⟨2, 3, 4⟩],
      g.source < 4 ∧ g.destination < 4) ∧
    ∃ r : KResult,
      kruskalMST 4 [⟨0, 1, 10⟩, ⟨0, 2, 6⟩, ⟨0, 3, 5⟩, ⟨1, 3, 15⟩, ⟨2, 3, 4⟩] = some r ∧
      SpanningForest (↑[(⟨0, 1, 10⟩ : Edge), ⟨0, 2, 6⟩, ⟨0, 3, 5⟩, ⟨1, 3, 15⟩, ⟨2, 3, 4⟩])
        (↑r.mst) ∧
      r.cost = weightSum (↑r.mst) ∧
      ∀ F, SpanningForest
        (↑[(⟨0, 1, 10⟩ : Edge), ⟨0, 2, 6⟩, ⟨0, 3, 5⟩, ⟨1, 3, 15⟩, ⟨2, 3, 4⟩]) F →
        r.cost ≤ weightSum F :=
  ⟨by decide, kruskalMST_minimal 4
    [⟨0, 1, 10⟩, ⟨0, 2, 6⟩, ⟨0, 3, 5⟩, ⟨1, 3, 15⟩, ⟨2, 3, 4⟩] (by decide)⟩
